import Mathlib

/-!
Shallow embedding of `internal/sync.go` (ssosync): one-directional
reconciliation of users and groups from a Google (source) directory to an
AWS SSO SCIM (target) directory.

The Google client is modelled as pre-fetched results (each fetch either a
list or an error); the AWS client is modelled as explicit state passing over
`AwsState` together with an `AwsBehavior` that fixes the username the target
assigns at creation and injects errors into individual calls.  A ghost log
of mutating SCIM calls (`Op`) is threaded through the state so that claims
about which operations a run performs are statable.  Loops return
`state × Option Err`: `some e` means the run aborted with error `e`, with
the state as it stood at the abort (Go returns only the error; the mutations
already applied to the real target of course persist, which the state
component records).
-/

namespace Ssosync

/-- Errors surfaced by the directory clients, modelled as opaque strings. -/
abbrev Err := String

/-- A source (Google) user: the fields of `admin.User` that `sync.go` reads
(`PrimaryEmail`, `Name.GivenName`, `Name.FamilyName`). -/
structure GoogleUser where
  primaryEmail : String
  givenName : String
  familyName : String
deriving DecidableEq

/-- A source (Google) group: `sync.go` reads only its `Name`. -/
structure GoogleGroup where
  name : String
deriving DecidableEq

/-- A source group member: `sync.go` reads only its `Email`. -/
structure GoogleMember where
  email : String
deriving DecidableEq

/-- A target (AWS SSO) user: the username assigned by the target plus the
attributes set at creation. -/
structure AwsUser where
  username : String
  givenName : String
  familyName : String
  email : String
deriving DecidableEq

/-- A target (AWS SSO) group, identified by its display name. -/
structure AwsGroup where
  displayName : String
deriving DecidableEq

/-- Ghost trace of the mutating SCIM calls performed on the target. -/
inductive Op where
  | createUser (u : AwsUser)
  | deleteUser (username : String)
  | createGroup (name : String)
  | deleteGroup (name : String)
  | addUserToGroup (username group : String)
  | removeUserFromGroup (username group : String)
deriving DecidableEq

/-- Observable state of the target directory: its users, its groups (keyed
by display name), its membership pairs `(username, group displayName)`, and
the ghost log of mutations performed so far. -/
structure AwsState where
  users : List AwsUser
  groups : List AwsGroup
  memberships : List (String × String)
  log : List Op
deriving DecidableEq

/-- Out-of-scope detail of the AWS client, fixed per run: which username the
target assigns to a created user, and which individual calls fail (an
`Option Err` oracle per call, keyed by the call's arguments). -/
structure AwsBehavior where
  assignUsername : String → String
  findErr : String → Option Err
  createUserErr : String → Option Err
  deleteUserErr : String → Option Err
  getGroupsErr : Option Err
  createGroupErr : String → Option Err
  deleteGroupErr : String → Option Err
  memberCheckErr : String → String → Option Err
  addErr : String → String → Option Err
  removeErr : String → String → Option Err

/-- Pre-fetched results of the Google client's read calls.  `groupMembers`
is keyed by the group's name (the only group field `sync.go` uses). -/
structure GoogleDirectory where
  deletedUsers : Except Err (List GoogleUser)
  activeUsers : Except Err (List GoogleUser)
  groups : Except Err (List GoogleGroup)
  groupMembers : String → Except Err (List GoogleMember)

/-- `aws.FindUserByEmail`: returns the `(user, error)` pair of the Go call.
On an injected error no user is returned; otherwise the first target user
with the given primary email, or `none`. -/
def findUserByEmail (beh : AwsBehavior) (st : AwsState) (email : String) :
    Option AwsUser × Option Err :=
  match beh.findErr email with
  | some e => (none, some e)
  | none => (st.users.find? (fun u => u.email == email), none)

/-- The user record `aws.CreateUser (aws.NewUser given family email)`
produces: attributes from the source user, username assigned by the
target. -/
def mkUser (beh : AwsBehavior) (givenName familyName email : String) : AwsUser :=
  { username := beh.assignUsername email
    givenName := givenName
    familyName := familyName
    email := email }

/-- `aws.CreateUser`: appends the created user to the target and returns
it, or fails with the injected error. -/
def createUser (beh : AwsBehavior) (st : AwsState)
    (givenName familyName email : String) : Except Err (AwsUser × AwsState) :=
  match beh.createUserErr email with
  | some e => .error e
  | none =>
    let u := mkUser beh givenName familyName email
    .ok (u, { st with
      users := st.users ++ [u]
      log := st.log ++ [Op.createUser u] })

/-- `aws.DeleteUser`: removes the user (by its target username) and its
membership pairs, or fails with the injected error. -/
def deleteUser (beh : AwsBehavior) (st : AwsState) (u : AwsUser) :
    Except Err AwsState :=
  match beh.deleteUserErr u.username with
  | some e => .error e
  | none => .ok { st with
      users := st.users.filter (fun v => v.username != u.username)
      memberships := st.memberships.filter (fun p => p.1 != u.username)
      log := st.log ++ [Op.deleteUser u.username] }

/-- `aws.GetGroups`: the target's current group set (a map keyed by display
name in Go, modelled as the list of groups), or the injected error. -/
def getGroups (beh : AwsBehavior) (st : AwsState) : Except Err (List AwsGroup) :=
  match beh.getGroupsErr with
  | some e => .error e
  | none => .ok st.groups

/-- `aws.CreateGroup (aws.NewGroup name)`: appends a group with the given
display name and returns it, or fails with the injected error. -/
def createGroup (beh : AwsBehavior) (st : AwsState) (name : String) :
    Except Err (AwsGroup × AwsState) :=
  match beh.createGroupErr name with
  | some e => .error e
  | none =>
    .ok (⟨name⟩, { st with
      groups := st.groups ++ [⟨name⟩]
      log := st.log ++ [Op.createGroup name] })

/-- `aws.DeleteGroup`: removes the group (by display name) and its
membership pairs, or fails with the injected error. -/
def deleteGroup (beh : AwsBehavior) (st : AwsState) (g : AwsGroup) :
    Except Err AwsState :=
  match beh.deleteGroupErr g.displayName with
  | some e => .error e
  | none => .ok { st with
      groups := st.groups.filter (fun h => h.displayName != g.displayName)
      memberships := st.memberships.filter (fun p => p.2 != g.displayName)
      log := st.log ++ [Op.deleteGroup g.displayName] }

/-- `aws.IsUserInGroup`: whether the membership pair is present, or the
injected error. -/
def isUserInGroup (beh : AwsBehavior) (st : AwsState) (u : AwsUser)
    (g : AwsGroup) : Except Err Bool :=
  match beh.memberCheckErr u.username g.displayName with
  | some e => .error e
  | none => .ok (st.memberships.contains (u.username, g.displayName))

/-- `aws.AddUserToGroup`: appends the membership pair, or fails with the
injected error. -/
def addUserToGroup (beh : AwsBehavior) (st : AwsState) (u : AwsUser)
    (g : AwsGroup) : Except Err AwsState :=
  match beh.addErr u.username g.displayName with
  | some e => .error e
  | none => .ok { st with
      memberships := st.memberships ++ [(u.username, g.displayName)]
      log := st.log ++ [Op.addUserToGroup u.username g.displayName] }

/-- `aws.RemoveUserFromGroup`: removes the membership pair, or fails with
the injected error. -/
def removeUserFromGroup (beh : AwsBehavior) (st : AwsState) (u : AwsUser)
    (g : AwsGroup) : Except Err AwsState :=
  match beh.removeErr u.username g.displayName with
  | some e => .error e
  | none => .ok { st with
      memberships :=
        st.memberships.filter (fun p => p != (u.username, g.displayName))
      log := st.log ++ [Op.removeUserFromGroup u.username g.displayName] }

/-- The reconciler's correlation table `s.users : map[string]*aws.User`,
keyed by target username. -/
abbrev UsersTable := List (String × AwsUser)

/-- Go map insertion `s.users[k] = v`: at most one entry per key. -/
def tblInsert (tbl : UsersTable) (k : String) (v : AwsUser) : UsersTable :=
  tbl.filter (fun p => p.1 != k) ++ [(k, v)]

/-- The keys of the correlation table. -/
def tblKeys (tbl : UsersTable) : List String := tbl.map Prod.fst

/-- The values of the correlation table, in table order (Go iterates the
map in unspecified order; the per-user group work commutes across users). -/
def tblValues (tbl : UsersTable) : List AwsUser := tbl.map Prod.snd

/-- First loop of `SyncUsers` (sync.go lines 62-75): for each source user
reported deleted, look the counterpart up by primary email — dropping the
error component, as `uu, _ :=` does — skip when absent, delete when
present. -/
def processDeleted (beh : AwsBehavior) :
    List GoogleUser → AwsState → AwsState × Option Err
  | [], st => (st, none)
  | d :: rest, st =>
    match (findUserByEmail beh st d.primaryEmail).1 with
    | none => processDeleted beh rest st
    | some uu =>
      match deleteUser beh st uu with
      | .error e => (st, some e)
      | .ok st1 => processDeleted beh rest st1

/-- Second loop of `SyncUsers` (sync.go lines 83-106): for each active
source user, look the counterpart up by primary email (error component
dropped); when found record it in the correlation table, otherwise create
it from the source attributes and record the created user. -/
def processActive (beh : AwsBehavior) :
    List GoogleUser → AwsState → UsersTable → AwsState × UsersTable × Option Err
  | [], st, tbl => (st, tbl, none)
  | a :: rest, st, tbl =>
    match (findUserByEmail beh st a.primaryEmail).1 with
    | some uu => processActive beh rest st (tblInsert tbl uu.username uu)
    | none =>
      match createUser beh st a.givenName a.familyName a.primaryEmail with
      | .error e => (st, tbl, some e)
      | .ok (uu, st1) => processActive beh rest st1 (tblInsert tbl uu.username uu)

/-- `SyncUsers` (sync.go lines 55-109): fetch deleted users, process them,
fetch active users, process them; any fetch error aborts.  Returns the
target state, the correlation table, and the error outcome. -/
def SyncUsers (gd : GoogleDirectory) (beh : AwsBehavior) (st : AwsState) :
    AwsState × UsersTable × Option Err :=
  match gd.deletedUsers with
  | .error e => (st, [], some e)
  | .ok del =>
    match processDeleted beh del st with
    | (st1, some e) => (st1, [], some e)
    | (st1, none) =>
      match gd.activeUsers with
      | .error e => (st1, [], some e)
      | .ok act => processActive beh act st1 []

/-- The filtered member list of one group (sync.go lines 155-163): the
member map keyed by member email, restricted to emails that occur as keys
of the correlation table.  Only key membership is consulted downstream, so
the map is modelled as its key list. -/
def memberFilter (tbl : UsersTable) (ms : List GoogleMember) : List String :=
  (ms.filter (fun m => (tblKeys tbl).contains m.email)).map GoogleMember.email

/-- Per-group user loop (sync.go lines 165-189): for every user in the
correlation table, check live membership, then add when the user's
`Username` is a key of the filtered member list and it is not a member,
remove when it is a member but not in the list. -/
def syncGroupMembers (beh : AwsBehavior) (group : AwsGroup)
    (memberList : List String) :
    List AwsUser → AwsState → AwsState × Option Err
  | [], st => (st, none)
  | u :: rest, st =>
    match isUserInGroup beh st u group with
    | .error e => (st, some e)
    | .ok b =>
      if memberList.contains u.username then
        if b then syncGroupMembers beh group memberList rest st
        else
          match addUserToGroup beh st u group with
          | .error e => (st, some e)
          | .ok st1 => syncGroupMembers beh group memberList rest st1
      else
        if b then
          match removeUserFromGroup beh st u group with
          | .error e => (st, some e)
          | .ok st1 => syncGroupMembers beh group memberList rest st1
        else syncGroupMembers beh group memberList rest st

/-- Member handling of one source group: fetch its member list, filter it
against the correlation table, run the per-user loop. -/
def syncOneGroupMembers (gd : GoogleDirectory) (beh : AwsBehavior)
    (tbl : UsersTable) (g : GoogleGroup) (group : AwsGroup) (st : AwsState) :
    AwsState × Option Err :=
  match gd.groupMembers g.name with
  | .error e => (st, some e)
  | .ok ms => syncGroupMembers beh group (memberFilter tbl ms) (tblValues tbl) st

/-- Main loop of `SyncGroups` (sync.go lines 127-190): correlate each
source group against the snapshot fetched at the start of the run (create
it when absent from the snapshot), record its display name as correlated,
and reconcile its members. -/
def processGroups (gd : GoogleDirectory) (beh : AwsBehavior) (tbl : UsersTable)
    (snapshot : List AwsGroup) :
    List GoogleGroup → AwsState → List String →
      AwsState × List String × Option Err
  | [], st, correlated => (st, correlated, none)
  | g :: rest, st, correlated =>
    match snapshot.find? (fun ag => ag.displayName == g.name) with
    | some awsGroup =>
      match syncOneGroupMembers gd beh tbl g awsGroup st with
      | (st1, some e) => (st1, correlated ++ [awsGroup.displayName], some e)
      | (st1, none) =>
          processGroups gd beh tbl snapshot rest st1
            (correlated ++ [awsGroup.displayName])
    | none =>
      match createGroup beh st g.name with
      | .error e => (st, correlated, some e)
      | .ok (newGroup, st1) =>
        match syncOneGroupMembers gd beh tbl g newGroup st1 with
        | (st2, some e) => (st2, correlated ++ [newGroup.displayName], some e)
        | (st2, none) =>
            processGroups gd beh tbl snapshot rest st2
              (correlated ++ [newGroup.displayName])

/-- Cleanup loop of `SyncGroups` (sync.go lines 192-201): delete every
group of the initial snapshot whose display name was never correlated. -/
def cleanupGroups (beh : AwsBehavior) (correlated : List String) :
    List AwsGroup → AwsState → AwsState × Option Err
  | [], st => (st, none)
  | g :: rest, st =>
    if correlated.contains g.displayName then cleanupGroups beh correlated rest st
    else
      match deleteGroup beh st g with
      | .error e => (st, some e)
      | .ok st1 => cleanupGroups beh correlated rest st1

/-- `SyncGroups` (sync.go lines 112-204): fetch the target group snapshot
once, fetch the source groups, run the main loop, then the cleanup loop. -/
def SyncGroups (gd : GoogleDirectory) (beh : AwsBehavior) (tbl : UsersTable)
    (st : AwsState) : AwsState × Option Err :=
  match getGroups beh st with
  | .error e => (st, some e)
  | .ok snapshot =>
    match gd.groups with
    | .error e => (st, some e)
    | .ok gs =>
      match processGroups gd beh tbl snapshot gs st [] with
      | (st1, _, some e) => (st1, some e)
      | (st1, correlated, none) => cleanupGroups beh correlated snapshot st1

/-! ### Concrete instances used to exercise the model -/

/-- A target behavior with no injected errors, assigning the primary email
as the username (the common SCIM configuration). -/
def behNoErr : AwsBehavior :=
  { assignUsername := fun e => e
    findErr := fun _ => none
    createUserErr := fun _ => none
    deleteUserErr := fun _ => none
    getGroupsErr := none
    createGroupErr := fun _ => none
    deleteGroupErr := fun _ => none
    memberCheckErr := fun _ _ => none
    addErr := fun _ _ => none
    removeErr := fun _ _ => none }

/-- `behNoErr`, but the find-by-email lookup fails transiently for
`a@x`. -/
def behFindErr : AwsBehavior :=
  { behNoErr with findErr := fun e => if e = "a@x" then some "timeout" else none }

/-- `behNoErr`, but deleting the user named `bob@x` fails. -/
def behDelErr : AwsBehavior :=
  { behNoErr with deleteUserErr := fun n => if n = "bob@x" then some "boom" else none }

/-- `behNoErr`, but the membership check for user `u1` in group `G`
fails. -/
def behChkErr : AwsBehavior :=
  { behNoErr with
    memberCheckErr := fun n g => if n = "u1" ∧ g = "G" then some "boom" else none }

/-- A source directory with one active user `a@x` and one group `G` whose
single member has email `a@x`. -/
def gdKeyed : GoogleDirectory :=
  { deletedUsers := .ok []
    activeUsers := .ok [⟨"a@x", "Ada", "Lovelace"⟩]
    groups := .ok [⟨"G"⟩]
    groupMembers := fun n => if n = "G" then .ok [⟨"a@x"⟩] else .ok [] }

/-- As `gdKeyed`, but the group member's email is the literal string
`u1` — the target username of the correlated principal. -/
def gdColl : GoogleDirectory :=
  { gdKeyed with groupMembers := fun n => if n = "G" then .ok [⟨"u1"⟩] else .ok [] }

/-- A target whose only user carries username `u1` but primary email
`a@x`, and whose only group is `G`. -/
def stKeyed : AwsState := ⟨[⟨"u1", "Ada", "Lovelace", "a@x"⟩], [⟨"G"⟩], [], []⟩

/-- An empty target directory. -/
def stEmpty : AwsState := ⟨[], [], [], []⟩

/-- A target holding exactly the user `bob@x` (username = email). -/
def stBob : AwsState := ⟨[⟨"bob@x", "Bob", "B", "bob@x"⟩], [], [], []⟩

/-- A target holding the users `bob@x` and `carol@x`. -/
def stBobCarol : AwsState :=
  ⟨[⟨"bob@x", "Bob", "B", "bob@x"⟩, ⟨"carol@x", "Carol", "C", "carol@x"⟩],
    [], [], []⟩

/-- A source directory with one group `G` whose member is `alice@x`, and
`alice@x` active. -/
def gdAlice : GoogleDirectory :=
  { deletedUsers := .ok []
    activeUsers := .ok [⟨"alice@x", "Alice", "A"⟩]
    groups := .ok [⟨"G"⟩]
    groupMembers := fun n => if n = "G" then .ok [⟨"alice@x"⟩] else .ok [] }

/-- A target with user alice (username = email) and empty group `G`. -/
def stAliceG : AwsState :=
  ⟨[⟨"alice@x", "Alice", "A", "alice@x"⟩], [⟨"G"⟩], [], []⟩

/-- A source directory reporting `bob@x` deleted and `alice@x` active. -/
def gdBasic : GoogleDirectory :=
  { deletedUsers := .ok [⟨"bob@x", "Bob", "B"⟩]
    activeUsers := .ok [⟨"alice@x", "Alice", "A"⟩]
    groups := .ok []
    groupMembers := fun _ => .ok [] }

/-- As `gdBasic`, but the deleted-users fetch itself fails. -/
def gdDelsErr : GoogleDirectory := { gdBasic with deletedUsers := .error "boom" }

/-- As `gdBasic`, but the active-users fetch fails. -/
def gdActsErr : GoogleDirectory := { gdBasic with activeUsers := .error "boom" }

/-- As `gdBasic`, but the source group-list fetch fails. -/
def gdGroupsErr : GoogleDirectory := { gdBasic with groups := .error "boom" }

/-- As `gdKeyed`, but every member-list fetch fails. -/
def gdMembersErr : GoogleDirectory :=
  { gdKeyed with groupMembers := fun _ => .error "boom" }

/-- `behNoErr`, but the target group-list fetch fails. -/
def behGGErr : AwsBehavior := { behNoErr with getGroupsErr := some "boom" }

/-- `behNoErr`, but creating the user with email `alice@x` fails. -/
def behCreateErr : AwsBehavior :=
  { behNoErr with
    createUserErr := fun e2 => if e2 = "alice@x" then some "boom" else none }

/-- `behNoErr`, but creating the group `G` fails. -/
def behCGErr : AwsBehavior :=
  { behNoErr with
    createGroupErr := fun n => if n = "G" then some "boom" else none }

/-- `behNoErr`, but deleting the group `Temp` fails. -/
def behDGErr : AwsBehavior :=
  { behNoErr with
    deleteGroupErr := fun n => if n = "Temp" then some "boom" else none }

/-- `behNoErr`, but adding user `u1` to group `G` fails. -/
def behAddErr : AwsBehavior :=
  { behNoErr with
    addErr := fun n g2 => if n = "u1" ∧ g2 = "G" then some "boom" else none }

/-- `behNoErr`, but removing user `u1` from group `G` fails. -/
def behRemErr : AwsBehavior :=
  { behNoErr with
    removeErr := fun n g2 => if n = "u1" ∧ g2 = "G" then some "boom" else none }

/-- The one-entry correlation table for the `stKeyed` target. -/
def tblKeyed : UsersTable := [("u1", ⟨"u1", "Ada", "Lovelace", "a@x"⟩)]

/-- The target state `gdBasic`/`behNoErr` produce from `stBob`: bob
deleted, alice created. -/
def stAfter : AwsState :=
  ⟨[⟨"alice@x", "Alice", "A", "alice@x"⟩], [], [],
    [Op.deleteUser "bob@x", Op.createUser ⟨"alice@x", "Alice", "A", "alice@x"⟩]⟩

/-- As `stKeyed`, but the principal is already a member of `G`. -/
def stKeyedMem : AwsState :=
  ⟨[⟨"u1", "Ada", "Lovelace", "a@x"⟩], [⟨"G"⟩], [("u1", "G")], []⟩

/-- A source directory listing the same group name `H` twice, with no
users and no members. -/
def gdDup : GoogleDirectory :=
  { deletedUsers := .ok []
    activeUsers := .ok []
    groups := .ok [⟨"H"⟩, ⟨"H"⟩]
    groupMembers := fun _ => .ok [] }

/-! ### Basic facts about the primitive client operations -/

theorem findUserByEmail_fst_none {beh : AwsBehavior} {st : AwsState} {email : String}
    (h : ∀ u ∈ st.users, u.email ≠ email) :
    (findUserByEmail beh st email).1 = none := by
  unfold findUserByEmail
  cases hf : beh.findErr email with
  | none => exact List.find?_eq_none.mpr fun u hu => by simpa using h u hu
  | some e => rfl

theorem findUserByEmail_fst_some {beh : AwsBehavior} {st : AwsState} {email : String}
    {uu : AwsUser} (h : (findUserByEmail beh st email).1 = some uu) :
    uu ∈ st.users ∧ uu.email = email := by
  unfold findUserByEmail at h
  cases hf : beh.findErr email with
  | none =>
    rw [hf] at h
    exact ⟨List.mem_of_find?_eq_some h, by simpa using List.find?_some h⟩
  | some e => rw [hf] at h; cases h

theorem findUserByEmail_fst_eq {beh : AwsBehavior} {st : AwsState} {email : String}
    (hfe : beh.findErr email = none) :
    (findUserByEmail beh st email).1 = st.users.find? (fun u => u.email == email) := by
  simp [findUserByEmail, hfe]

theorem createUser_ok {beh : AwsBehavior} {st st1 : AwsState} {g f e : String}
    {uu : AwsUser} (h : createUser beh st g f e = .ok (uu, st1)) :
    uu = mkUser beh g f e ∧
    st1.users = st.users ++ [uu] ∧ st1.groups = st.groups ∧
    st1.memberships = st.memberships ∧ st1.log = st.log ++ [Op.createUser uu] := by
  unfold createUser at h
  cases hc : beh.createUserErr e with
  | none =>
    rw [hc] at h
    simp only [Except.ok.injEq, Prod.mk.injEq] at h
    obtain ⟨h1, h2⟩ := h
    subst h1; subst h2
    exact ⟨rfl, rfl, rfl, rfl, rfl⟩
  | some e2 => rw [hc] at h; cases h

theorem deleteUser_ok {beh : AwsBehavior} {st st1 : AwsState} {u : AwsUser}
    (h : deleteUser beh st u = .ok st1) :
    st1.users = st.users.filter (fun v => v.username != u.username) ∧
    st1.groups = st.groups ∧
    st1.memberships = st.memberships.filter (fun p => p.1 != u.username) ∧
    st1.log = st.log ++ [Op.deleteUser u.username] := by
  unfold deleteUser at h
  cases hc : beh.deleteUserErr u.username with
  | none =>
    rw [hc] at h
    simp only [Except.ok.injEq] at h
    subst h
    exact ⟨rfl, rfl, rfl, rfl⟩
  | some e2 => rw [hc] at h; cases h

/-! ### The deleted-users loop -/

/-- When no source-deleted user has a counterpart in the target, the loop
is a silent no-op: no error, no mutation. -/
theorem processDeleted_skip {beh : AwsBehavior} {del : List GoogleUser} {st : AwsState}
    (h : ∀ d ∈ del, ∀ u ∈ st.users, u.email ≠ d.primaryEmail) :
    processDeleted beh del st = (st, none) := by
  induction del with
  | nil => rfl
  | cons d rest ih =>
    have hn : (findUserByEmail beh st d.primaryEmail).1 = none :=
      findUserByEmail_fst_none fun u hu => h d (by simp) u hu
    simp only [processDeleted, hn]
    exact ih fun d' hd' u hu => h d' (by simp [hd']) u hu

/-- The deleted-users loop only removes target users. -/
theorem processDeleted_users_sublist {beh : AwsBehavior} {del : List GoogleUser} :
    ∀ {st st' : AwsState} {r : Option Err}, processDeleted beh del st = (st', r) →
    List.Sublist st'.users st.users := by
  induction del with
  | nil =>
    intro st st' r h
    simp only [processDeleted, Prod.mk.injEq] at h
    rw [h.1]
  | cons d rest ih =>
    intro st st' r h
    simp only [processDeleted] at h
    split at h
    · exact ih h
    · rename_i uu hf
      split at h
      · rename_i e hd
        simp only [Prod.mk.injEq] at h
        rw [← h.1]
      · rename_i st1 hd
        have hsub := ih h
        have h2 : List.Sublist st1.users st.users := by
          rw [(deleteUser_ok hd).1]
          exact List.filter_sublist st.users
        exact hsub.trans h2

/-- Primary emails stay duplicate-free while the deleted-users loop runs. -/
theorem processDeleted_emails_nodup {beh : AwsBehavior} {del : List GoogleUser}
    {st st' : AwsState} {r : Option Err} (h : processDeleted beh del st = (st', r))
    (hnd : (st.users.map AwsUser.email).Nodup) :
    (st'.users.map AwsUser.email).Nodup :=
  List.Nodup.sublist (List.Sublist.map AwsUser.email (processDeleted_users_sublist h)) hnd

/-- After a successful deleted-users loop with honest lookups and
duplicate-free target emails, no target user carries the email of any
source-deleted user. -/
theorem processDeleted_removes {beh : AwsBehavior} {del : List GoogleUser} :
    ∀ {st st' : AwsState}, processDeleted beh del st = (st', none) →
    (st.users.map AwsUser.email).Nodup →
    (∀ e, beh.findErr e = none) →
    ∀ d ∈ del, ∀ u ∈ st'.users, u.email ≠ d.primaryEmail := by
  induction del with
  | nil => intro st st' h hnd hfe d hd; cases hd
  | cons d0 rest ih =>
    intro st st' h hnd hfe d hd u hu
    simp only [processDeleted] at h
    split at h
    · rename_i hf
      rw [findUserByEmail_fst_eq (hfe _)] at hf
      have habs : ∀ v ∈ st.users, v.email ≠ d0.primaryEmail := by
        intro v hv hve
        have hv2 := List.find?_eq_none.mp hf v hv
        simp [hve] at hv2
      rcases List.mem_cons.mp hd with hd1 | hd1
      · subst hd1
        exact habs u ((processDeleted_users_sublist h).subset hu)
      · exact ih h hnd hfe d hd1 u hu
    · rename_i uu hf
      split at h
      · rename_i e hd'
        simp only [Prod.mk.injEq] at h
        exact absurd h.2 (by simp)
      · rename_i st1 hd'
        have hok := deleteUser_ok hd'
        have hnd1 : (st1.users.map AwsUser.email).Nodup := by
          rw [hok.1]
          exact List.Nodup.sublist
            (List.Sublist.map AwsUser.email (List.filter_sublist st.users)) hnd
        obtain ⟨huum, huue⟩ := findUserByEmail_fst_some hf
        rcases List.mem_cons.mp hd with hd1 | hd1
        · subst hd1
          intro hue
          have hu1 : u ∈ st1.users := (processDeleted_users_sublist h).subset hu
          rw [hok.1] at hu1
          have hu2 := List.mem_filter.mp hu1
          have : u = uu :=
            List.inj_on_of_nodup_map hnd hu2.1 huum (by rw [hue, huue])
          rw [this] at hu2
          simp at hu2
        · exact ih h hnd1 hfe d hd1 u hu

/-- C2: For every source principal reported deleted whose target
counterpart exists (found by primary email), the deleted-principals phase
removes that counterpart from the target; when no counterpart is found,
the phase is a silent skip: no error and no mutation. -/
theorem claim_C2_deleted_principals {beh : AwsBehavior} {del : List GoogleUser}
    {st : AwsState}
    (hfe : ∀ e, beh.findErr e = none)
    (hnd : (st.users.map AwsUser.email).Nodup) :
    (∀ st', processDeleted beh del st = (st', none) →
      ∀ d ∈ del, ∀ u ∈ st'.users, u.email ≠ d.primaryEmail)
    ∧ ((∀ d ∈ del, ∀ u ∈ st.users, u.email ≠ d.primaryEmail) →
      processDeleted beh del st = (st, none)) :=
  ⟨fun _ h' => processDeleted_removes h' hnd hfe, processDeleted_skip⟩

/-- Witness for C2 on a concrete world: `bob@x` is reported deleted and
present in the target alongside `carol@x`; the run removes bob and the
surviving carol does not carry bob's email; `alice@x`-only deletions over
an empty target are a silent no-op. -/
theorem claim_C2_deleted_principals_witness :
    (AwsUser.mk "carol@x" "Carol" "C" "carol@x").email ≠
      (GoogleUser.mk "bob@x" "Bob" "B").primaryEmail
    ∧ processDeleted behNoErr [⟨"alice@x", "Alice", "A"⟩] stEmpty = (stEmpty, none) := by
  constructor
  · exact (@claim_C2_deleted_principals behNoErr [⟨"bob@x", "Bob", "B"⟩] stBobCarol
      (fun _ => rfl) (by decide)).1
      ⟨[⟨"carol@x", "Carol", "C", "carol@x"⟩], [], [], [Op.deleteUser "bob@x"]⟩
      (by decide) ⟨"bob@x", "Bob", "B"⟩ (by decide)
      ⟨"carol@x", "Carol", "C", "carol@x"⟩ (by decide)
  · exact (@claim_C2_deleted_principals behNoErr [⟨"alice@x", "Alice", "A"⟩]
      stEmpty (fun _ => rfl) (by decide)).2 (by decide)

/-- C6: An error returned by the target find-by-email lookup is never
propagated: in the deleted-users loop it behaves exactly like "no
counterpart" (skip), and in the active-users loop it leads straight to the
create call. -/
theorem claim_C6_lookup_errors_swallowed (beh : AwsBehavior) (st : AwsState)
    (tbl : UsersTable) (d a : GoogleUser) (rest rest' : List GoogleUser) (e : Err) :
    (beh.findErr d.primaryEmail = some e →
      processDeleted beh (d :: rest) st = processDeleted beh rest st)
    ∧ (beh.findErr a.primaryEmail = some e →
      processActive beh (a :: rest') st tbl =
        match createUser beh st a.givenName a.familyName a.primaryEmail with
        | .error e2 => (st, tbl, some e2)
        | .ok (uu, st1) => processActive beh rest' st1 (tblInsert tbl uu.username uu)) := by
  constructor
  · intro hf
    have hn : (findUserByEmail beh st d.primaryEmail).1 = none := by
      simp [findUserByEmail, hf]
    simp [processDeleted, hn]
  · intro hf
    have hn : (findUserByEmail beh st a.primaryEmail).1 = none := by
      simp [findUserByEmail, hf]
    simp only [processActive, hn]

/-- Witness for C6: with a transient lookup failure injected for `a@x`,
the deleted-pass skips an existing counterpart, and the active-pass goes
on to create a duplicate. -/
theorem claim_C6_lookup_errors_swallowed_witness :
    processDeleted behFindErr [⟨"a@x", "Ada", "Lovelace"⟩] stKeyed =
      processDeleted behFindErr [] stKeyed
    ∧ processActive behFindErr [⟨"a@x", "Ada", "Lovelace"⟩] stKeyed [] =
        match createUser behFindErr stKeyed "Ada" "Lovelace" "a@x" with
        | .error e2 => (stKeyed, [], some e2)
        | .ok (uu, st1) => processActive behFindErr [] st1 (tblInsert [] uu.username uu) := by
  refine ⟨?_, ?_⟩
  · exact (claim_C6_lookup_errors_swallowed behFindErr stKeyed []
      ⟨"a@x", "Ada", "Lovelace"⟩ ⟨"a@x", "Ada", "Lovelace"⟩ [] [] "timeout").1 (by decide)
  · exact (claim_C6_lookup_errors_swallowed behFindErr stKeyed []
      ⟨"a@x", "Ada", "Lovelace"⟩ ⟨"a@x", "Ada", "Lovelace"⟩ [] [] "timeout").2 (by decide)

/-- C7: any error — from any of the five list fetches, any of the six
create/delete/add/remove mutations, or the membership check — aborts the
run at once: the error is returned unchanged, no further directory call
runs (the returned state is the state at the failure point), and mutations
already applied (present in that state) are kept; loop errors propagate
unchanged through `SyncUsers` and `SyncGroups`. -/
theorem claim_C7_errors_abort (gd : GoogleDirectory) (beh : AwsBehavior)
    (st st1 st2 : AwsState) (tbl : UsersTable) (del act : List GoogleUser)
    (d a : GoogleUser) (rest : List GoogleUser) (uu u : AwsUser)
    (us : List AwsUser) (G : AwsGroup) (ml : List String) (g : GoogleGroup)
    (grest gs : List GoogleGroup) (snap garest : List AwsGroup)
    (corr : List String) (e : Err) :
    (gd.deletedUsers = .error e → SyncUsers gd beh st = (st, [], some e))
    ∧ (gd.deletedUsers = .ok del → processDeleted beh del st = (st1, none) →
        gd.activeUsers = .error e → SyncUsers gd beh st = (st1, [], some e))
    ∧ (beh.getGroupsErr = some e → SyncGroups gd beh tbl st = (st, some e))
    ∧ (beh.getGroupsErr = none → gd.groups = .error e →
        SyncGroups gd beh tbl st = (st, some e))
    ∧ (gd.groupMembers g.name = .error e →
        syncOneGroupMembers gd beh tbl g G st = (st, some e))
    ∧ ((findUserByEmail beh st a.primaryEmail).1 = none →
        beh.createUserErr a.primaryEmail = some e →
        processActive beh (a :: rest) st tbl = (st, tbl, some e))
    ∧ ((findUserByEmail beh st d.primaryEmail).1 = some uu →
        beh.deleteUserErr uu.username = some e →
        processDeleted beh (d :: rest) st = (st, some e))
    ∧ (snap.find? (fun ag => ag.displayName == g.name) = none →
        beh.createGroupErr g.name = some e →
        processGroups gd beh tbl snap (g :: grest) st corr = (st, corr, some e))
    ∧ (corr.contains G.displayName = false →
        beh.deleteGroupErr G.displayName = some e →
        cleanupGroups beh corr (G :: garest) st = (st, some e))
    ∧ (beh.memberCheckErr u.username G.displayName = none →
        (u.username, G.displayName) ∉ st.memberships →
        ml.contains u.username = true →
        beh.addErr u.username G.displayName = some e →
        syncGroupMembers beh G ml (u :: us) st = (st, some e))
    ∧ (beh.memberCheckErr u.username G.displayName = none →
        (u.username, G.displayName) ∈ st.memberships →
        ml.contains u.username = false →
        beh.removeErr u.username G.displayName = some e →
        syncGroupMembers beh G ml (u :: us) st = (st, some e))
    ∧ (beh.memberCheckErr u.username G.displayName = some e →
        syncGroupMembers beh G ml (u :: us) st = (st, some e))
    ∧ (gd.deletedUsers = .ok del → processDeleted beh del st = (st1, some e) →
        SyncUsers gd beh st = (st1, [], some e))
    ∧ (gd.deletedUsers = .ok del → processDeleted beh del st = (st1, none) →
        gd.activeUsers = .ok act →
        processActive beh act st1 [] = (st2, tbl, some e) →
        SyncUsers gd beh st = (st2, tbl, some e))
    ∧ (beh.getGroupsErr = none → gd.groups = .ok gs →
        processGroups gd beh tbl st.groups gs st [] = (st1, corr, some e) →
        SyncGroups gd beh tbl st = (st1, some e))
    ∧ (beh.getGroupsErr = none → gd.groups = .ok gs →
        processGroups gd beh tbl st.groups gs st [] = (st1, corr, none) →
        cleanupGroups beh corr st.groups st1 = (st2, some e) →
        SyncGroups gd beh tbl st = (st2, some e))
    ∧ (snap.find? (fun ag => ag.displayName == g.name) = some G →
        syncOneGroupMembers gd beh tbl g G st = (st1, some e) →
        processGroups gd beh tbl snap (g :: grest) st corr
          = (st1, corr ++ [G.displayName], some e))
    ∧ (snap.find? (fun ag => ag.displayName == g.name) = none →
        createGroup beh st g.name = .ok (G, st1) →
        syncOneGroupMembers gd beh tbl g G st1 = (st2, some e) →
        processGroups gd beh tbl snap (g :: grest) st corr
          = (st2, corr ++ [G.displayName], some e)) := by
  refine ⟨?_, ?_, ?_, ?_, ?_, ?_, ?_, ?_, ?_, ?_, ?_, ?_, ?_, ?_, ?_, ?_, ?_, ?_⟩
  · intro h
    simp [SyncUsers, h]
  · intro h1 h2 h3
    simp [SyncUsers, h1, h2, h3]
  · intro h
    simp [SyncGroups, getGroups, h]
  · intro h1 h2
    simp [SyncGroups, getGroups, h1, h2]
  · intro h
    simp [syncOneGroupMembers, h]
  · intro h1 h2
    simp only [processActive, h1]
    simp [createUser, h2]
  · intro h1 h2
    simp only [processDeleted, h1]
    simp [deleteUser, h2]
  · intro h1 h2
    simp only [processGroups, h1]
    simp [createGroup, h2]
  · intro h1 h2
    have hnin : G.displayName ∉ corr := by simpa using h1
    simp [cleanupGroups, hnin, deleteGroup, h2]
  · intro h1 h2 h3 h4
    have h3' : u.username ∈ ml := by simpa using h3
    simp [syncGroupMembers, isUserInGroup, h1, h3', h2, addUserToGroup, h4]
  · intro h1 h2 h3 h4
    have h3' : u.username ∉ ml := by simpa using h3
    simp [syncGroupMembers, isUserInGroup, h1, h3', h2, removeUserFromGroup, h4]
  · intro h
    simp [syncGroupMembers, isUserInGroup, h]
  · intro h1 h2
    simp [SyncUsers, h1, h2]
  · intro h1 h2 h3 h4
    simp [SyncUsers, h1, h2, h3, h4]
  · intro h1 h2 h3
    simp [SyncGroups, getGroups, h1, h2, h3]
  · intro h1 h2 h3 h4
    simp [SyncGroups, getGroups, h1, h2, h3, h4]
  · intro h1 h2
    simp [processGroups, h1, h2]
  · intro h1 h2 h3
    simp [processGroups, h1, h2, h3]

/-- Witness for C7 on concrete worlds, one per error site: each of the
five fetches, each of the six mutations and the membership check fails in
its own scenario, and each loop error propagates through the entry
points. -/
theorem claim_C7_errors_abort_witness :
    SyncUsers gdDelsErr behNoErr stEmpty = (stEmpty, [], some "boom")
    ∧ SyncUsers gdActsErr behNoErr stBob = (⟨[], [], [], [Op.deleteUser "bob@x"]⟩, [], some "boom")
    ∧ SyncGroups gdBasic behGGErr [] stEmpty = (stEmpty, some "boom")
    ∧ SyncGroups gdGroupsErr behNoErr [] stEmpty = (stEmpty, some "boom")
    ∧ syncOneGroupMembers gdMembersErr behNoErr tblKeyed ⟨"G"⟩ ⟨"G"⟩ stKeyed
        = (stKeyed, some "boom")
    ∧ processActive behCreateErr [⟨"alice@x", "Alice", "A"⟩] stEmpty []
        = (stEmpty, [], some "boom")
    ∧ processDeleted behDelErr [⟨"bob@x", "Bob", "B"⟩] stBob = (stBob, some "boom")
    ∧ processGroups gdKeyed behCGErr [] [] [⟨"G"⟩] stEmpty []
        = (stEmpty, [], some "boom")
    ∧ cleanupGroups behDGErr [] [⟨"Temp"⟩] ⟨[], [⟨"Temp"⟩], [], []⟩
        = (⟨[], [⟨"Temp"⟩], [], []⟩, some "boom")
    ∧ syncGroupMembers behAddErr ⟨"G"⟩ ["u1"] [⟨"u1", "Ada", "Lovelace", "a@x"⟩] stKeyed
        = (stKeyed, some "boom")
    ∧ syncGroupMembers behRemErr ⟨"G"⟩ [] [⟨"u1", "Ada", "Lovelace", "a@x"⟩] stKeyedMem
        = (stKeyedMem, some "boom")
    ∧ syncGroupMembers behChkErr ⟨"G"⟩ ["u1"] [⟨"u1", "Ada", "Lovelace", "a@x"⟩] stKeyed
        = (stKeyed, some "boom")
    ∧ SyncUsers gdBasic behDelErr stBob = (stBob, [], some "boom")
    ∧ SyncUsers gdAlice behCreateErr stEmpty = (stEmpty, [], some "boom")
    ∧ SyncGroups gdColl behChkErr tblKeyed stKeyed = (stKeyed, some "boom")
    ∧ SyncGroups gdKeyed behDGErr [] ⟨[], [⟨"G"⟩, ⟨"Temp"⟩], [], []⟩
        = (⟨[], [⟨"G"⟩, ⟨"Temp"⟩], [], []⟩, some "boom")
    ∧ processGroups gdColl behChkErr tblKeyed [⟨"G"⟩] [⟨"G"⟩] stKeyed []
        = (stKeyed, ["G"], some "boom")
    ∧ processGroups gdMembersErr behNoErr [] [] [⟨"G"⟩] stEmpty []
        = (⟨[], [⟨"G"⟩], [], [Op.createGroup "G"]⟩, ["G"], some "boom") := by
  refine ⟨?_, ?_, ?_, ?_, ?_, ?_, ?_, ?_, ?_, ?_, ?_, ?_, ?_, ?_, ?_, ?_, ?_, ?_⟩
  · exact (claim_C7_errors_abort gdDelsErr behNoErr stEmpty stEmpty stEmpty [] [] [] ⟨"", "", ""⟩ ⟨"", "", ""⟩ [] ⟨"", "", "", ""⟩ ⟨"", "", "", ""⟩ [] ⟨""⟩ [] ⟨""⟩ [] [] [] [] [] "boom").1 rfl
  · exact (claim_C7_errors_abort gdActsErr behNoErr stBob ⟨[], [], [], [Op.deleteUser "bob@x"]⟩ stEmpty [] [⟨"bob@x", "Bob", "B"⟩] [] ⟨"", "", ""⟩ ⟨"", "", ""⟩ [] ⟨"", "", "", ""⟩ ⟨"", "", "", ""⟩ [] ⟨""⟩ [] ⟨""⟩ [] [] [] [] [] "boom").2.1 rfl (by decide) rfl
  · exact (claim_C7_errors_abort gdBasic behGGErr stEmpty stEmpty stEmpty [] [] [] ⟨"", "", ""⟩ ⟨"", "", ""⟩ [] ⟨"", "", "", ""⟩ ⟨"", "", "", ""⟩ [] ⟨""⟩ [] ⟨""⟩ [] [] [] [] [] "boom").2.2.1 rfl
  · exact (claim_C7_errors_abort gdGroupsErr behNoErr stEmpty stEmpty stEmpty [] [] [] ⟨"", "", ""⟩ ⟨"", "", ""⟩ [] ⟨"", "", "", ""⟩ ⟨"", "", "", ""⟩ [] ⟨""⟩ [] ⟨""⟩ [] [] [] [] [] "boom").2.2.2.1 rfl rfl
  · exact (claim_C7_errors_abort gdMembersErr behNoErr stKeyed stKeyed stKeyed tblKeyed [] [] ⟨"", "", ""⟩ ⟨"", "", ""⟩ [] ⟨"", "", "", ""⟩ ⟨"", "", "", ""⟩ [] ⟨"G"⟩ [] ⟨"G"⟩ [] [] [] [] [] "boom").2.2.2.2.1 rfl
  · exact (claim_C7_errors_abort gdBasic behCreateErr stEmpty stEmpty stEmpty [] [] [] ⟨"", "", ""⟩ ⟨"alice@x", "Alice", "A"⟩ [] ⟨"", "", "", ""⟩ ⟨"", "", "", ""⟩ [] ⟨""⟩ [] ⟨""⟩ [] [] [] [] [] "boom").2.2.2.2.2.1 (by decide) (by decide)
  · exact (claim_C7_errors_abort gdBasic behDelErr stBob stBob stBob [] [] [] ⟨"bob@x", "Bob", "B"⟩ ⟨"", "", ""⟩ [] ⟨"bob@x", "Bob", "B", "bob@x"⟩ ⟨"", "", "", ""⟩ [] ⟨""⟩ [] ⟨""⟩ [] [] [] [] [] "boom").2.2.2.2.2.2.1 (by decide) (by decide)
  · exact (claim_C7_errors_abort gdKeyed behCGErr stEmpty stEmpty stEmpty [] [] [] ⟨"", "", ""⟩ ⟨"", "", ""⟩ [] ⟨"", "", "", ""⟩ ⟨"", "", "", ""⟩ [] ⟨""⟩ [] ⟨"G"⟩ [] [] [] [] [] "boom").2.2.2.2.2.2.2.1 (by decide) (by decide)
  · exact (claim_C7_errors_abort gdBasic behDGErr ⟨[], [⟨"Temp"⟩], [], []⟩ stEmpty stEmpty [] [] [] ⟨"", "", ""⟩ ⟨"", "", ""⟩ [] ⟨"", "", "", ""⟩ ⟨"", "", "", ""⟩ [] ⟨"Temp"⟩ [] ⟨""⟩ [] [] [] [] [] "boom").2.2.2.2.2.2.2.2.1 (by decide) (by decide)
  · exact (claim_C7_errors_abort gdBasic behAddErr stKeyed stKeyed stKeyed [] [] [] ⟨"", "", ""⟩ ⟨"", "", ""⟩ [] ⟨"", "", "", ""⟩ ⟨"u1", "Ada", "Lovelace", "a@x"⟩ [] ⟨"G"⟩ ["u1"] ⟨""⟩ [] [] [] [] [] "boom").2.2.2.2.2.2.2.2.2.1 rfl (by decide) (by decide) (by decide)
  · exact (claim_C7_errors_abort gdBasic behRemErr stKeyedMem stKeyedMem stKeyedMem [] [] [] ⟨"", "", ""⟩ ⟨"", "", ""⟩ [] ⟨"", "", "", ""⟩ ⟨"u1", "Ada", "Lovelace", "a@x"⟩ [] ⟨"G"⟩ [] ⟨""⟩ [] [] [] [] [] "boom").2.2.2.2.2.2.2.2.2.2.1 rfl (by decide) (by decide) (by decide)
  · exact (claim_C7_errors_abort gdBasic behChkErr stKeyed stKeyed stKeyed [] [] [] ⟨"", "", ""⟩ ⟨"", "", ""⟩ [] ⟨"", "", "", ""⟩ ⟨"u1", "Ada", "Lovelace", "a@x"⟩ [] ⟨"G"⟩ ["u1"] ⟨""⟩ [] [] [] [] [] "boom").2.2.2.2.2.2.2.2.2.2.2.1 (by decide)
  · exact (claim_C7_errors_abort gdBasic behDelErr stBob stBob stBob [] [⟨"bob@x", "Bob", "B"⟩] [] ⟨"", "", ""⟩ ⟨"", "", ""⟩ [] ⟨"", "", "", ""⟩ ⟨"", "", "", ""⟩ [] ⟨""⟩ [] ⟨""⟩ [] [] [] [] [] "boom").2.2.2.2.2.2.2.2.2.2.2.2.1 rfl (by decide)
  · exact (claim_C7_errors_abort gdAlice behCreateErr stEmpty stEmpty stEmpty [] [] [⟨"alice@x", "Alice", "A"⟩] ⟨"", "", ""⟩ ⟨"", "", ""⟩ [] ⟨"", "", "", ""⟩ ⟨"", "", "", ""⟩ [] ⟨""⟩ [] ⟨""⟩ [] [] [] [] [] "boom").2.2.2.2.2.2.2.2.2.2.2.2.2.1 rfl (by decide) rfl (by decide)
  · exact (claim_C7_errors_abort gdColl behChkErr stKeyed stKeyed stKeyed tblKeyed [] [] ⟨"", "", ""⟩ ⟨"", "", ""⟩ [] ⟨"", "", "", ""⟩ ⟨"", "", "", ""⟩ [] ⟨""⟩ [] ⟨""⟩ [] [⟨"G"⟩] [] [] ["G"] "boom").2.2.2.2.2.2.2.2.2.2.2.2.2.2.1 rfl rfl (by decide)
  · exact (claim_C7_errors_abort gdKeyed behDGErr ⟨[], [⟨"G"⟩, ⟨"Temp"⟩], [], []⟩ ⟨[], [⟨"G"⟩, ⟨"Temp"⟩], [], []⟩ ⟨[], [⟨"G"⟩, ⟨"Temp"⟩], [], []⟩ [] [] [] ⟨"", "", ""⟩ ⟨"", "", ""⟩ [] ⟨"", "", "", ""⟩ ⟨"", "", "", ""⟩ [] ⟨""⟩ [] ⟨""⟩ [] [⟨"G"⟩] [] [] ["G"] "boom").2.2.2.2.2.2.2.2.2.2.2.2.2.2.2.1 rfl rfl (by decide) (by decide)
  · exact (claim_C7_errors_abort gdColl behChkErr stKeyed stKeyed stKeyed tblKeyed [] [] ⟨"", "", ""⟩ ⟨"", "", ""⟩ [] ⟨"", "", "", ""⟩ ⟨"", "", "", ""⟩ [] ⟨"G"⟩ [] ⟨"G"⟩ [] [] [⟨"G"⟩] [] [] "boom").2.2.2.2.2.2.2.2.2.2.2.2.2.2.2.2.1 (by decide) (by decide)
  · exact (claim_C7_errors_abort gdMembersErr behNoErr stEmpty ⟨[], [⟨"G"⟩], [], [Op.createGroup "G"]⟩ ⟨[], [⟨"G"⟩], [], [Op.createGroup "G"]⟩ [] [] [] ⟨"", "", ""⟩ ⟨"", "", ""⟩ [] ⟨"", "", "", ""⟩ ⟨"", "", "", ""⟩ [] ⟨"G"⟩ [] ⟨"G"⟩ [] [] [] [] [] "boom").2.2.2.2.2.2.2.2.2.2.2.2.2.2.2.2.2 rfl rfl (by decide)

/-! ### The active-users loop -/

/-- The active-users loop only appends created users (each the image of a
processed source user) and leaves groups and memberships alone. -/
theorem processActive_state {beh : AwsBehavior} {l : List GoogleUser} :
    ∀ {st st' : AwsState} {tbl tbl' : UsersTable} {r : Option Err},
    processActive beh l st tbl = (st', tbl', r) →
    (∃ new, st'.users = st.users ++ new ∧
      ∀ u ∈ new, ∃ a ∈ l, u = mkUser beh a.givenName a.familyName a.primaryEmail)
    ∧ st'.groups = st.groups ∧ st'.memberships = st.memberships := by
  induction l with
  | nil =>
    intro st st' tbl tbl' r h
    simp only [processActive, Prod.mk.injEq] at h
    obtain ⟨h1, -, -⟩ := h
    subst h1
    exact ⟨⟨[], by simp, by simp⟩, rfl, rfl⟩
  | cons a rest ih =>
    intro st st' tbl tbl' r h
    simp only [processActive] at h
    split at h
    · obtain ⟨⟨new, hn, hp⟩, hg, hm⟩ := ih h
      exact ⟨⟨new, hn, fun u hu => by
        obtain ⟨a', ha', he⟩ := hp u hu
        exact ⟨a', by simp [ha'], he⟩⟩, hg, hm⟩
    · split at h
      · simp only [Prod.mk.injEq] at h
        obtain ⟨h1, -, -⟩ := h
        subst h1
        exact ⟨⟨[], by simp, by simp⟩, rfl, rfl⟩
      · rename_i uu st1 hcu
        obtain ⟨⟨new, hn, hp⟩, hg, hm⟩ := ih h
        have hok := createUser_ok hcu
        refine ⟨⟨uu :: new, ?_, ?_⟩, by rw [hg, hok.2.2.1], by rw [hm, hok.2.2.2.1]⟩
        · rw [hn, hok.2.1, List.append_assoc]
          rfl
        · intro u hu
          rcases List.mem_cons.mp hu with h1 | h1
          · exact ⟨a, by simp, by rw [h1, hok.1]⟩
          · obtain ⟨a', ha', he⟩ := hp u h1
            exact ⟨a', by simp [ha'], he⟩

/-- After a successful active-users loop, every active source user has a
target counterpart with its primary email. -/
theorem processActive_covers {beh : AwsBehavior} {l : List GoogleUser} :
    ∀ {st st' : AwsState} {tbl tbl' : UsersTable},
    processActive beh l st tbl = (st', tbl', none) →
    ∀ a ∈ l, ∃ u ∈ st'.users, u.email = a.primaryEmail := by
  induction l with
  | nil => intro st st' tbl tbl' _ a ha; cases ha
  | cons a0 rest ih =>
    intro st st' tbl tbl' h a ha
    simp only [processActive] at h
    split at h
    · rename_i uu hf
      rcases List.mem_cons.mp ha with h1 | h1
      · subst h1
        obtain ⟨hm, he⟩ := findUserByEmail_fst_some hf
        obtain ⟨new, hnew, -⟩ := (processActive_state h).1
        exact ⟨uu, by rw [hnew]; exact List.mem_append_left _ hm, he⟩
      · exact ih h a h1
    · split at h
      · simp only [Prod.mk.injEq] at h
        exact absurd h.2.2 (by simp)
      · rename_i uu st1 hcu
        rcases List.mem_cons.mp ha with h1 | h1
        · subst h1
          have hok := createUser_ok hcu
          have hmem : uu ∈ st1.users := by rw [hok.2.1]; simp
          obtain ⟨new, hnew, -⟩ := (processActive_state h).1
          refine ⟨uu, by rw [hnew]; exact List.mem_append_left _ hmem, ?_⟩
          rw [hok.1]
          rfl
        · exact ih h a h1

/-- When every active source user already has a target counterpart, the
active-users loop performs no mutation and no error occurs. -/
theorem processActive_all_found {beh : AwsBehavior} {l : List GoogleUser} :
    ∀ {st : AwsState} {tbl : UsersTable},
    (∀ e, beh.findErr e = none) →
    (∀ a ∈ l, ∃ u ∈ st.users, u.email = a.primaryEmail) →
    ∃ tbl', processActive beh l st tbl = (st, tbl', none) := by
  induction l with
  | nil => intro st tbl _ _; exact ⟨tbl, rfl⟩
  | cons a0 rest ih =>
    intro st tbl hfe hall
    obtain ⟨u, hu, hue⟩ := hall a0 (by simp)
    have hf : (findUserByEmail beh st a0.primaryEmail).1 ≠ none := by
      rw [findUserByEmail_fst_eq (hfe _)]
      intro hc
      exact absurd hue (by simpa using List.find?_eq_none.mp hc u hu)
    obtain ⟨uu, huu⟩ := Option.ne_none_iff_exists'.mp hf
    obtain ⟨tbl', htbl'⟩ :=
      @ih st (tblInsert tbl uu.username uu) hfe
        (fun a ha => hall a (by simp [ha]))
    exact ⟨tbl', by simp only [processActive, huu]; exact htbl'⟩

/-- In a list of users with duplicate-free primary emails, filtering by one
member's email yields exactly that member. -/
theorem users_filter_email_eq {l : List AwsUser} {x : AwsUser} {e : String}
    (hnd : (l.map AwsUser.email).Nodup) (hx : x ∈ l) (hxe : x.email = e) :
    l.filter (fun u => u.email == e) = [x] := by
  induction l with
  | nil => cases hx
  | cons h t ih =>
    simp only [List.map_cons, List.nodup_cons] at hnd
    rcases List.mem_cons.mp hx with h1 | h1
    · subst h1
      have ht : t.filter (fun u => u.email == e) = [] := by
        rw [List.filter_eq_nil_iff]
        intro u hu hc
        rw [beq_iff_eq] at hc
        exact hnd.1 (by rw [hxe, ← hc]; exact List.mem_map_of_mem AwsUser.email hu)
      simp [List.filter_cons, hxe, ht]
    · have hh : ¬ (h.email == e) = true := by
        intro hc
        rw [beq_iff_eq] at hc
        exact hnd.1 (by rw [hc, ← hxe]; exact List.mem_map_of_mem AwsUser.email h1)
      simp only [List.filter_cons, hh, if_neg, ite_false]
      exact ih hnd.2 h1

/-- A correlation-table entry whose key is its value's username survives
the rest of the active-users loop, provided the value is a final target
user and final usernames are duplicate-free. -/
theorem processActive_tbl_persist {beh : AwsBehavior} {l : List GoogleUser} :
    ∀ {st st' : AwsState} {tbl tbl' : UsersTable} {r : Option Err} {k : String}
      {v : AwsUser},
    processActive beh l st tbl = (st', tbl', r) →
    (k, v) ∈ tbl → k = v.username → v ∈ st'.users →
    (st'.users.map AwsUser.username).Nodup →
    (k, v) ∈ tbl' := by
  induction l with
  | nil =>
    intro st st' tbl tbl' r k v h hm _ _ _
    simp only [processActive, Prod.mk.injEq] at h
    rw [← h.2.1]
    exact hm
  | cons a rest ih =>
    intro st st' tbl tbl' r k v h hm hk hv hnd
    simp only [processActive] at h
    split at h
    · rename_i uu hf
      have huu : uu ∈ st'.users := by
        obtain ⟨new, hnew, -⟩ := (processActive_state h).1
        rw [hnew]
        exact List.mem_append_left _ (findUserByEmail_fst_some hf).1
      refine ih h ?_ hk hv hnd
      by_cases hku : uu.username = k
      · have huv : uu = v :=
          List.inj_on_of_nodup_map hnd huu hv (by rw [hku, hk])
        simp [tblInsert, hku, huv]
        exact Or.inr hk
      · exact List.mem_append_left _
          (List.mem_filter.mpr ⟨hm, by simpa using fun hc => hku hc.symm⟩)
    · split at h
      · simp only [Prod.mk.injEq] at h
        rw [← h.2.1]
        exact hm
      · rename_i uu st1 hcu
        have huu : uu ∈ st'.users := by
          obtain ⟨new, hnew, -⟩ := (processActive_state h).1
          rw [hnew, (createUser_ok hcu).2.1]
          simp
        refine ih h ?_ hk hv hnd
        by_cases hku : uu.username = k
        · have huv : uu = v :=
            List.inj_on_of_nodup_map hnd huu hv (by rw [hku, hk])
          simp [tblInsert, hku, huv]
          exact Or.inr hk
        · exact List.mem_append_left _
            (List.mem_filter.mpr ⟨hm, by simpa using fun hc => hku hc.symm⟩)

/-- Every correlation-table entry produced by the active-users loop is
keyed by its value's username, names a final target user, and correlates
to a processed active source user. -/
theorem processActive_tbl_entries {beh : AwsBehavior} {l : List GoogleUser} :
    ∀ {st st' : AwsState} {tbl tbl' : UsersTable} {r : Option Err},
    processActive beh l st tbl = (st', tbl', r) →
    ∀ p ∈ tbl', p ∈ tbl ∨
      (p.1 = p.2.username ∧ p.2 ∈ st'.users ∧ ∃ a ∈ l, p.2.email = a.primaryEmail) := by
  induction l with
  | nil =>
    intro st st' tbl tbl' r h p hp
    simp only [processActive, Prod.mk.injEq] at h
    rw [← h.2.1] at hp
    exact Or.inl hp
  | cons a0 rest ih =>
    intro st st' tbl tbl' r h p hp
    simp only [processActive] at h
    split at h
    · rename_i uu hf
      rcases ih h p hp with hin | hnw
      · rcases List.mem_append.mp hin with hin1 | hin1
        · exact Or.inl (List.mem_filter.mp hin1).1
        · simp only [List.mem_singleton] at hin1
          subst hin1
          obtain ⟨hm, he⟩ := findUserByEmail_fst_some hf
          obtain ⟨new, hnew, -⟩ := (processActive_state h).1
          exact Or.inr ⟨rfl, by rw [hnew]; exact List.mem_append_left _ hm,
            a0, by simp, he⟩
      · exact Or.inr ⟨hnw.1, hnw.2.1, by
          obtain ⟨a', ha', he⟩ := hnw.2.2
          exact ⟨a', by simp [ha'], he⟩⟩
    · split at h
      · simp only [Prod.mk.injEq] at h
        rw [← h.2.1] at hp
        exact Or.inl hp
      · rename_i uu st1 hcu
        have hok := createUser_ok hcu
        rcases ih h p hp with hin | hnw
        · rcases List.mem_append.mp hin with hin1 | hin1
          · exact Or.inl (List.mem_filter.mp hin1).1
          · simp only [List.mem_singleton] at hin1
            subst hin1
            have hmem : uu ∈ st1.users := by rw [hok.2.1]; simp
            obtain ⟨new, hnew, -⟩ := (processActive_state h).1
            refine Or.inr ⟨rfl, by rw [hnew]; exact List.mem_append_left _ hmem,
              a0, by simp, ?_⟩
            rw [hok.1]
            rfl
        · exact Or.inr ⟨hnw.1, hnw.2.1, by
            obtain ⟨a', ha', he⟩ := hnw.2.2
            exact ⟨a', by simp [ha'], he⟩⟩

/-- After a successful active-users loop with honest lookups,
duplicate-free target emails and duplicate-free final usernames, every
final target user whose email matches a processed active source user is
recorded in the correlation table under its username. -/
theorem processActive_tbl_complete {beh : AwsBehavior} {l : List GoogleUser} :
    ∀ {st st' : AwsState} {tbl tbl' : UsersTable},
    processActive beh l st tbl = (st', tbl', none) →
    (∀ e, beh.findErr e = none) →
    (st.users.map AwsUser.email).Nodup →
    (st'.users.map AwsUser.username).Nodup →
    ∀ u ∈ st'.users, (∃ a ∈ l, u.email = a.primaryEmail) → (u.username, u) ∈ tbl' := by
  induction l with
  | nil =>
    intro st st' tbl tbl' _ _ _ _ u _ hex
    obtain ⟨a, ha, -⟩ := hex
    cases ha
  | cons a0 rest ih =>
    intro st st' tbl tbl' h hfe hnd hnd' u hu hex
    simp only [processActive] at h
    split at h
    · rename_i uu hf
      obtain ⟨huum, huue⟩ := findUserByEmail_fst_some hf
      by_cases hrest : ∃ a ∈ rest, u.email = a.primaryEmail
      · exact ih h hfe hnd hnd' u hu hrest
      · have hue : u.email = a0.primaryEmail := by
          obtain ⟨a, ha, he⟩ := hex
          rcases List.mem_cons.mp ha with h1 | h1
          · rw [← h1]; exact he
          · exact absurd ⟨a, h1, he⟩ hrest
        obtain ⟨new, hnew, hnewp⟩ := (processActive_state h).1
        rw [hnew] at hu
        rcases List.mem_append.mp hu with hu1 | hu1
        · have huuv : u = uu :=
            List.inj_on_of_nodup_map hnd hu1 huum (by rw [hue, huue])
          refine processActive_tbl_persist h ?_ rfl
            (by rw [hnew]; exact List.mem_append_left _ hu1) hnd'
          rw [huuv]
          simp [tblInsert]
        · obtain ⟨a', ha', hua'⟩ := hnewp u hu1
          exact absurd ⟨a', ha', by rw [hua']; rfl⟩ hrest
    · rename_i hf0
      split at h
      · simp only [Prod.mk.injEq] at h
        exact absurd h.2.2 (by simp)
      · rename_i uu st1 hcu
        have hok := createUser_ok hcu
        have habs : ∀ v ∈ st.users, v.email ≠ a0.primaryEmail := by
          rw [findUserByEmail_fst_eq (hfe _)] at hf0
          intro v hv hc
          have hv2 := List.find?_eq_none.mp hf0 v hv
          simp [hc] at hv2
        have hnd1 : (st1.users.map AwsUser.email).Nodup := by
          rw [hok.2.1, hok.1]
          simp only [List.map_append, List.map_cons, List.map_nil]
          rw [List.nodup_append]
          refine ⟨hnd, List.nodup_singleton _, ?_⟩
          intro e he he2
          simp only [mkUser, List.mem_singleton] at he2
          obtain ⟨v, hv, hve⟩ := List.mem_map.mp he
          exact habs v hv (by rw [hve, he2])
        by_cases hrest : ∃ a ∈ rest, u.email = a.primaryEmail
        · exact ih h hfe hnd1 hnd' u hu hrest
        · have hue : u.email = a0.primaryEmail := by
            obtain ⟨a, ha, he⟩ := hex
            rcases List.mem_cons.mp ha with h1 | h1
            · rw [← h1]; exact he
            · exact absurd ⟨a, h1, he⟩ hrest
          obtain ⟨new, hnew, hnewp⟩ := (processActive_state h).1
          rw [hnew] at hu
          rcases List.mem_append.mp hu with hu1 | hu1
          · rw [hok.2.1] at hu1
            rcases List.mem_append.mp hu1 with hu2 | hu2
            · exact absurd hue (habs u hu2)
            · simp only [List.mem_singleton] at hu2
              subst hu2
              refine processActive_tbl_persist h ?_ rfl
                (by rw [hnew, hok.2.1]; exact List.mem_append_left _ (by simp)) hnd'
              simp [tblInsert]
          · obtain ⟨a', ha', hua'⟩ := hnewp u hu1
            exact absurd ⟨a', ha', by rw [hua']; rfl⟩ hrest

/-- Exactly-one lemma for the active-users loop: a source user with no
counterpart at loop entry ends with exactly its created image carrying its
email; one with a counterpart ends with exactly that unchanged counterpart
carrying its email. -/
theorem processActive_filter {beh : AwsBehavior} {l : List GoogleUser} :
    ∀ {st st' : AwsState} {tbl tbl' : UsersTable},
    processActive beh l st tbl = (st', tbl', none) →
    (∀ e, beh.findErr e = none) →
    (st.users.map AwsUser.email).Nodup →
    (l.map GoogleUser.primaryEmail).Nodup →
    ∀ a ∈ l,
      ((∀ u ∈ st.users, u.email ≠ a.primaryEmail) →
        st'.users.filter (fun u => u.email == a.primaryEmail)
          = [mkUser beh a.givenName a.familyName a.primaryEmail])
      ∧ (∀ uu ∈ st.users, uu.email = a.primaryEmail →
        st'.users.filter (fun u => u.email == a.primaryEmail) = [uu]) := by
  induction l with
  | nil => intro st st' tbl tbl' _ _ _ _ a ha; cases ha
  | cons a0 rest ih =>
    intro st st' tbl tbl' h hfe hnd hl a ha
    simp only [List.map_cons, List.nodup_cons] at hl
    simp only [processActive] at h
    split at h
    · rename_i uu hf
      obtain ⟨huum, huue⟩ := findUserByEmail_fst_some hf
      rcases List.mem_cons.mp ha with h1 | h1
      · subst h1
        constructor
        · intro habs
          exact absurd huue (habs uu huum)
        · intro uu' hm he
          obtain ⟨new, hnew, hnewp⟩ := (processActive_state h).1
          rw [hnew, List.filter_append, users_filter_email_eq hnd hm he]
          have hnil : new.filter (fun u => u.email == a.primaryEmail) = [] := by
            rw [List.filter_eq_nil_iff]
            intro u hu hc
            rw [beq_iff_eq] at hc
            obtain ⟨a', ha', hua'⟩ := hnewp u hu
            exact hl.1 (by
              rw [← hc, hua']
              exact List.mem_map_of_mem GoogleUser.primaryEmail ha')
          rw [hnil]
          simp
      · exact ih h hfe hnd hl.2 a h1
    · rename_i hf0
      split at h
      · simp only [Prod.mk.injEq] at h
        exact absurd h.2.2 (by simp)
      · rename_i uu st1 hcu
        have hok := createUser_ok hcu
        have habs0 : ∀ v ∈ st.users, v.email ≠ a0.primaryEmail := by
          rw [findUserByEmail_fst_eq (hfe _)] at hf0
          intro v hv hc
          have hv2 := List.find?_eq_none.mp hf0 v hv
          simp [hc] at hv2
        have hnd1 : (st1.users.map AwsUser.email).Nodup := by
          rw [hok.2.1, hok.1]
          simp only [List.map_append, List.map_cons, List.map_nil]
          rw [List.nodup_append]
          refine ⟨hnd, List.nodup_singleton _, ?_⟩
          intro e he he2
          simp only [mkUser, List.mem_singleton] at he2
          obtain ⟨v, hv, hve⟩ := List.mem_map.mp he
          exact habs0 v hv (by rw [hve, he2])
        rcases List.mem_cons.mp ha with h1 | h1
        · subst h1
          constructor
          · intro habs
            obtain ⟨new, hnew, hnewp⟩ := (processActive_state h).1
            rw [hnew, hok.2.1, List.filter_append, List.filter_append]
            have hnilst : st.users.filter (fun u => u.email == a.primaryEmail) = [] := by
              rw [List.filter_eq_nil_iff]
              intro u hu hc
              rw [beq_iff_eq] at hc
              exact habs u hu hc
            have hnil : new.filter (fun u => u.email == a.primaryEmail) = [] := by
              rw [List.filter_eq_nil_iff]
              intro u hu hc
              rw [beq_iff_eq] at hc
              obtain ⟨a', ha', hua'⟩ := hnewp u hu
              exact hl.1 (by
                rw [← hc, hua']
                exact List.mem_map_of_mem GoogleUser.primaryEmail ha')
            rw [hnilst, hnil, hok.1]
            simp [mkUser]
          · intro uu' hm he
            exact absurd he (habs0 uu' hm)
        · refine (ih h hfe hnd1 hl.2 a h1).imp ?_ ?_
          · intro hi habs
            refine hi ?_
            intro u hu
            rw [hok.2.1] at hu
            rcases List.mem_append.mp hu with hu1 | hu1
            · exact habs u hu1
            · simp only [List.mem_singleton] at hu1
              subst hu1
              rw [hok.1]
              intro hc
              have hc2 : a0.primaryEmail = a.primaryEmail := hc
              exact hl.1 (by
                rw [hc2]
                exact List.mem_map_of_mem GoogleUser.primaryEmail h1)
          · intro hi uu' hm he
            exact hi uu' (by rw [hok.2.1]; exact List.mem_append_left _ hm) he

/-- C3: In a successful active-users pass, an active source principal with
no target counterpart at loop entry ends with exactly one target principal
carrying its primary email — its created image with the source given and
family names — and that principal is recorded in the correlation table;
an active source principal whose counterpart exists ends with exactly that
counterpart, byte-for-byte unchanged (no create, no attribute update), and
recorded in the table. -/
theorem claim_C3_create_or_skip {beh : AwsBehavior} {act : List GoogleUser}
    {st st' : AwsState} {tbl : UsersTable}
    (hfe : ∀ e, beh.findErr e = none)
    (hnd : (st.users.map AwsUser.email).Nodup)
    (hact : (act.map GoogleUser.primaryEmail).Nodup)
    (hrun : processActive beh act st [] = (st', tbl, none))
    (hnd' : (st'.users.map AwsUser.username).Nodup) :
    ∀ a ∈ act,
      ((∀ u ∈ st.users, u.email ≠ a.primaryEmail) →
        st'.users.filter (fun u => u.email == a.primaryEmail)
            = [mkUser beh a.givenName a.familyName a.primaryEmail]
          ∧ ((mkUser beh a.givenName a.familyName a.primaryEmail).username,
              mkUser beh a.givenName a.familyName a.primaryEmail) ∈ tbl)
      ∧ (∀ uu ∈ st.users, uu.email = a.primaryEmail →
        st'.users.filter (fun u => u.email == a.primaryEmail) = [uu]
          ∧ (uu.username, uu) ∈ tbl) := by
  intro a ha
  have hflt := processActive_filter hrun hfe hnd hact a ha
  constructor
  · intro habs
    have hfil := hflt.1 habs
    have hmem : mkUser beh a.givenName a.familyName a.primaryEmail ∈ st'.users := by
      have : mkUser beh a.givenName a.familyName a.primaryEmail ∈
          st'.users.filter (fun u => u.email == a.primaryEmail) := by
        rw [hfil]
        exact List.mem_singleton_self _
      exact (List.mem_filter.mp this).1
    exact ⟨hfil, processActive_tbl_complete hrun hfe hnd hnd' _ hmem ⟨a, ha, rfl⟩⟩
  · intro uu hm he
    have hfil := hflt.2 uu hm he
    have hmem : uu ∈ st'.users := by
      have : uu ∈ st'.users.filter (fun u => u.email == a.primaryEmail) := by
        rw [hfil]
        exact List.mem_singleton_self _
      exact (List.mem_filter.mp this).1
    exact ⟨hfil, processActive_tbl_complete hrun hfe hnd hnd' _ hmem ⟨a, ha, he⟩⟩

/-- Witness for C3: over `stBob`, the active pass for `alice@x` (new) and
`bob@x` (existing) creates exactly one alice, keeps bob untouched, and
records both in the table. -/
theorem claim_C3_create_or_skip_witness :
    ((AwsState.mk [⟨"bob@x", "Bob", "B", "bob@x"⟩,
        ⟨"alice@x", "Alice", "A", "alice@x"⟩] [] [] [Op.createUser
          ⟨"alice@x", "Alice", "A", "alice@x"⟩]).users.filter
        (fun u => u.email == "alice@x")
        = [⟨"alice@x", "Alice", "A", "alice@x"⟩]
      ∧ ("alice@x", AwsUser.mk "alice@x" "Alice" "A" "alice@x") ∈
          ([("alice@x", ⟨"alice@x", "Alice", "A", "alice@x"⟩),
            ("bob@x", ⟨"bob@x", "Bob", "B", "bob@x"⟩)] : UsersTable))
    ∧ ((AwsState.mk [⟨"bob@x", "Bob", "B", "bob@x"⟩,
        ⟨"alice@x", "Alice", "A", "alice@x"⟩] [] [] [Op.createUser
          ⟨"alice@x", "Alice", "A", "alice@x"⟩]).users.filter
        (fun u => u.email == "bob@x")
        = [⟨"bob@x", "Bob", "B", "bob@x"⟩]
      ∧ ("bob@x", AwsUser.mk "bob@x" "Bob" "B" "bob@x") ∈
          ([("alice@x", ⟨"alice@x", "Alice", "A", "alice@x"⟩),
            ("bob@x", ⟨"bob@x", "Bob", "B", "bob@x"⟩)] : UsersTable)) := by
  have H := @claim_C3_create_or_skip behNoErr
    [⟨"alice@x", "Alice", "A"⟩, ⟨"bob@x", "Bob", "B"⟩] stBob
    ⟨[⟨"bob@x", "Bob", "B", "bob@x"⟩,
      ⟨"alice@x", "Alice", "A", "alice@x"⟩], [], [],
      [Op.createUser ⟨"alice@x", "Alice", "A", "alice@x"⟩]⟩
    [("alice@x", ⟨"alice@x", "Alice", "A", "alice@x"⟩),
      ("bob@x", ⟨"bob@x", "Bob", "B", "bob@x"⟩)]
    (fun _ => rfl) (by decide) (by decide) (by decide) (by decide)
  exact ⟨(H ⟨"alice@x", "Alice", "A"⟩ (by simp)).1 (by decide),
    (H ⟨"bob@x", "Bob", "B"⟩ (by simp)).2 ⟨"bob@x", "Bob", "B", "bob@x"⟩
      (by decide) rfl⟩

/-- C5: with honest lookups, duplicate-free target emails and
source-disjoint deleted/active lists, a second `SyncUsers` run over the
state a successful first run produced performs no mutation at all: it
returns the same state (log included) with no error. -/
theorem claim_C5_idempotent {gd : GoogleDirectory} {beh : AwsBehavior}
    {st st1 : AwsState} {tbl1 : UsersTable} {del act : List GoogleUser}
    (hfe : ∀ e, beh.findErr e = none)
    (hdel : gd.deletedUsers = .ok del)
    (hact : gd.activeUsers = .ok act)
    (hnd : (st.users.map AwsUser.email).Nodup)
    (hdisj : ∀ d ∈ del, ∀ a ∈ act, d.primaryEmail ≠ a.primaryEmail)
    (hrun : SyncUsers gd beh st = (st1, tbl1, none)) :
    (SyncUsers gd beh st1).1 = st1 ∧ (SyncUsers gd beh st1).2.2 = none := by
  simp only [SyncUsers, hdel, hact] at hrun
  split at hrun
  · rename_i st0 e h0
    simp only [Prod.mk.injEq] at hrun
    exact absurd hrun.2.2 (by simp)
  · rename_i st0 h0
    have hclear : ∀ d ∈ del, ∀ u ∈ st1.users, u.email ≠ d.primaryEmail := by
      intro d hd u hu
      obtain ⟨new, hnew, hnewp⟩ := (processActive_state hrun).1
      rw [hnew] at hu
      rcases List.mem_append.mp hu with hu1 | hu1
      · exact processDeleted_removes h0 hnd hfe d hd u hu1
      · obtain ⟨a', ha', hua'⟩ := hnewp u hu1
        rw [hua']
        intro hc
        exact hdisj d hd a' ha' (by rw [← hc]; rfl)
    have hcover := processActive_covers hrun
    have h1' : processDeleted beh del st1 = (st1, none) :=
      processDeleted_skip fun d hd u hu => hclear d hd u hu
    obtain ⟨tbl2, h2'⟩ :=
      @processActive_all_found beh act st1 [] hfe hcover
    have hfull : SyncUsers gd beh st1 = (st1, tbl2, none) := by
      simp only [SyncUsers, hdel, hact, h1']
      exact h2'
    rw [hfull]
    exact ⟨rfl, rfl⟩

/-- Witness for C5: a second run of `gdBasic` over the state the first run
left behind returns it unchanged with no error. -/
theorem claim_C5_idempotent_witness :
    (SyncUsers gdBasic behNoErr stAfter).1 = stAfter
    ∧ (SyncUsers gdBasic behNoErr stAfter).2.2 = none :=
  @claim_C5_idempotent gdBasic behNoErr stBob stAfter
    [("alice@x", ⟨"alice@x", "Alice", "A", "alice@x"⟩)]
    [⟨"bob@x", "Bob", "B"⟩] [⟨"alice@x", "Alice", "A"⟩]
    (fun _ => rfl) rfl rfl (by decide) (by decide) (by decide)

/-- C8: after a successful `SyncUsers` run (honest lookups, duplicate-free
emails at entry and usernames at exit), the correlation table holds exactly
the target principals that exist in the target and whose email matches an
active source principal, each under its username key; a target principal
matching no active source principal is absent from the table. -/
theorem claim_C8_table_invariant {gd : GoogleDirectory} {beh : AwsBehavior}
    {st st' : AwsState} {tbl : UsersTable} {act : List GoogleUser}
    (hfe : ∀ e, beh.findErr e = none)
    (hact : gd.activeUsers = .ok act)
    (hnd : (st.users.map AwsUser.email).Nodup)
    (hrun : SyncUsers gd beh st = (st', tbl, none))
    (hnd' : (st'.users.map AwsUser.username).Nodup) :
    (∀ p ∈ tbl, p.1 = p.2.username ∧ p.2 ∈ st'.users
      ∧ ∃ a ∈ act, p.2.email = a.primaryEmail)
    ∧ (∀ u ∈ st'.users,
        (∃ a ∈ act, u.email = a.primaryEmail) → (u.username, u) ∈ tbl) := by
  rcases hdel : gd.deletedUsers with e | del
  · simp only [SyncUsers, hdel] at hrun
    simp only [Prod.mk.injEq] at hrun
    exact absurd hrun.2.2 (by simp)
  · simp only [SyncUsers, hdel, hact] at hrun
    split at hrun
    · rename_i st0 e h0
      simp only [Prod.mk.injEq] at hrun
      exact absurd hrun.2.2 (by simp)
    · rename_i st0 h0
      have hnd0 := processDeleted_emails_nodup h0 hnd
      constructor
      · intro p hp
        rcases processActive_tbl_entries hrun p hp with hin | hok
        · cases hin
        · exact hok
      · exact processActive_tbl_complete hrun hfe hnd0 hnd'

/-- Witness for C8 on the `gdBasic`/`stBob` run: the table entry for alice
is keyed by its username and names a surviving target user, and alice —
the active-matching target user — is in the table. -/
theorem claim_C8_table_invariant_witness :
    ("alice@x" = (AwsUser.mk "alice@x" "Alice" "A" "alice@x").username
      ∧ AwsUser.mk "alice@x" "Alice" "A" "alice@x" ∈ stAfter.users)
    ∧ ((AwsUser.mk "alice@x" "Alice" "A" "alice@x").username,
        AwsUser.mk "alice@x" "Alice" "A" "alice@x") ∈
          ([("alice@x", ⟨"alice@x", "Alice", "A", "alice@x"⟩)] : UsersTable) := by
  have H := @claim_C8_table_invariant gdBasic behNoErr stBob stAfter
    [("alice@x", ⟨"alice@x", "Alice", "A", "alice@x"⟩)]
    [⟨"alice@x", "Alice", "A"⟩]
    (fun _ => rfl) rfl (by decide) (by decide) (by decide)
  have h1 := H.1 ("alice@x", ⟨"alice@x", "Alice", "A", "alice@x"⟩) (by decide)
  have h2 := H.2 ⟨"alice@x", "Alice", "A", "alice@x"⟩ (by decide)
    ⟨⟨"alice@x", "Alice", "A"⟩, by decide, rfl⟩
  exact ⟨⟨h1.1, h1.2.1⟩, h2⟩

/-! ### The group membership loop -/

theorem isUserInGroup_ok {beh : AwsBehavior} {st : AwsState} {u : AwsUser}
    {g : AwsGroup} {b : Bool} (h : isUserInGroup beh st u g = .ok b) :
    b = st.memberships.contains (u.username, g.displayName) := by
  unfold isUserInGroup at h
  cases hc : beh.memberCheckErr u.username g.displayName with
  | none =>
    rw [hc] at h
    simp only [Except.ok.injEq] at h
    rw [h]
  | some e => rw [hc] at h; cases h

theorem addUserToGroup_ok {beh : AwsBehavior} {st st1 : AwsState} {u : AwsUser}
    {g : AwsGroup} (h : addUserToGroup beh st u g = .ok st1) :
    st1.users = st.users ∧ st1.groups = st.groups ∧
    st1.memberships = st.memberships ++ [(u.username, g.displayName)] ∧
    st1.log = st.log ++ [Op.addUserToGroup u.username g.displayName] := by
  unfold addUserToGroup at h
  cases hc : beh.addErr u.username g.displayName with
  | none =>
    rw [hc] at h
    simp only [Except.ok.injEq] at h
    subst h
    exact ⟨rfl, rfl, rfl, rfl⟩
  | some e => rw [hc] at h; cases h

theorem removeUserFromGroup_ok {beh : AwsBehavior} {st st1 : AwsState}
    {u : AwsUser} {g : AwsGroup} (h : removeUserFromGroup beh st u g = .ok st1) :
    st1.users = st.users ∧ st1.groups = st.groups ∧
    st1.memberships =
      st.memberships.filter (fun p => p != (u.username, g.displayName)) ∧
    st1.log = st.log ++ [Op.removeUserFromGroup u.username g.displayName] := by
  unfold removeUserFromGroup at h
  cases hc : beh.removeErr u.username g.displayName with
  | none =>
    rw [hc] at h
    simp only [Except.ok.injEq] at h
    subst h
    exact ⟨rfl, rfl, rfl, rfl⟩
  | some e => rw [hc] at h; cases h

theorem createGroup_ok {beh : AwsBehavior} {st st1 : AwsState} {n : String}
    {g : AwsGroup} (h : createGroup beh st n = .ok (g, st1)) :
    g = ⟨n⟩ ∧ st1.groups = st.groups ++ [⟨n⟩] ∧ st1.users = st.users ∧
    st1.memberships = st.memberships ∧ st1.log = st.log ++ [Op.createGroup n] := by
  unfold createGroup at h
  cases hc : beh.createGroupErr n with
  | none =>
    rw [hc] at h
    simp only [Except.ok.injEq, Prod.mk.injEq] at h
    obtain ⟨h1, h2⟩ := h
    subst h1; subst h2
    exact ⟨rfl, rfl, rfl, rfl, rfl⟩
  | some e => rw [hc] at h; cases h

theorem deleteGroup_ok {beh : AwsBehavior} {st st1 : AwsState} {g : AwsGroup}
    (h : deleteGroup beh st g = .ok st1) :
    st1.groups = st.groups.filter (fun h2 => h2.displayName != g.displayName) ∧
    st1.users = st.users ∧
    st1.memberships = st.memberships.filter (fun p => p.2 != g.displayName) ∧
    st1.log = st.log ++ [Op.deleteGroup g.displayName] := by
  unfold deleteGroup at h
  cases hc : beh.deleteGroupErr g.displayName with
  | none =>
    rw [hc] at h
    simp only [Except.ok.injEq] at h
    subst h
    exact ⟨rfl, rfl, rfl, rfl⟩
  | some e => rw [hc] at h; cases h

/-- The per-group user loop never touches target users or groups, and its
log suffix holds only membership add/remove calls. -/
theorem syncGroupMembers_state {beh : AwsBehavior} {G : AwsGroup}
    {ml : List String} : ∀ {us : List AwsUser} {st st1 : AwsState} {r : Option Err},
    syncGroupMembers beh G ml us st = (st1, r) →
    st1.users = st.users ∧ st1.groups = st.groups ∧
    ∃ new, st1.log = st.log ++ new ∧
      ∀ op ∈ new, (∃ x y, op = Op.addUserToGroup x y) ∨
        (∃ x y, op = Op.removeUserFromGroup x y) := by
  intro us
  induction us with
  | nil =>
    intro st st1 r h
    simp only [syncGroupMembers, Prod.mk.injEq] at h
    rw [← h.1]
    exact ⟨rfl, rfl, [], by simp, by simp⟩
  | cons u0 rest ih =>
    intro st st1 r h
    simp only [syncGroupMembers] at h
    split at h
    · rename_i e hchk
      simp only [Prod.mk.injEq] at h
      rw [← h.1]
      exact ⟨rfl, rfl, [], by simp, by simp⟩
    · rename_i b hchk
      split at h
      · split at h
        · exact ih h
        · split at h
          · rename_i e hadd
            simp only [Prod.mk.injEq] at h
            rw [← h.1]
            exact ⟨rfl, rfl, [], by simp, by simp⟩
          · rename_i stx hadd
            obtain ⟨hu, hg, new, hlog, hops⟩ := ih h
            have hok := addUserToGroup_ok hadd
            refine ⟨hu.trans hok.1, hg.trans hok.2.1,
              Op.addUserToGroup u0.username G.displayName :: new, ?_, ?_⟩
            · rw [hlog, hok.2.2.2, List.append_assoc]
              rfl
            · intro op hop
              rcases List.mem_cons.mp hop with h1 | h1
              · exact Or.inl ⟨_, _, h1⟩
              · exact hops op h1
      · split at h
        · split at h
          · rename_i e hrem
            simp only [Prod.mk.injEq] at h
            rw [← h.1]
            exact ⟨rfl, rfl, [], by simp, by simp⟩
          · rename_i stx hrem
            obtain ⟨hu, hg, new, hlog, hops⟩ := ih h
            have hok := removeUserFromGroup_ok hrem
            refine ⟨hu.trans hok.1, hg.trans hok.2.1,
              Op.removeUserFromGroup u0.username G.displayName :: new, ?_, ?_⟩
            · rw [hlog, hok.2.2.2, List.append_assoc]
              rfl
            · intro op hop
              rcases List.mem_cons.mp hop with h1 | h1
              · exact Or.inr ⟨_, _, h1⟩
              · exact hops op h1
        · exact ih h

/-- Frame rule for the per-group user loop: a membership pair for a
different group, or for a username outside the iterated user list, is
untouched. -/
theorem syncGroupMembers_frame {beh : AwsBehavior} {G : AwsGroup}
    {ml : List String} : ∀ {us : List AwsUser} {st st1 : AwsState} {r : Option Err},
    syncGroupMembers beh G ml us st = (st1, r) →
    ∀ n gname, (gname ≠ G.displayName ∨ n ∉ us.map AwsUser.username) →
    ((n, gname) ∈ st1.memberships ↔ (n, gname) ∈ st.memberships) := by
  intro us
  induction us with
  | nil =>
    intro st st1 r h n gname _
    simp only [syncGroupMembers, Prod.mk.injEq] at h
    rw [← h.1]
  | cons u0 rest ih =>
    intro st st1 r h n gname hside
    have hne : (n, gname) ≠ (u0.username, G.displayName) := by
      rcases hside with h1 | h1
      · intro hc
        exact h1 (congrArg Prod.snd hc)
      · intro hc
        exact h1 (by
          rw [show n = u0.username from congrArg Prod.fst hc]
          simp)
    have hrest : gname ≠ G.displayName ∨ n ∉ rest.map AwsUser.username := by
      rcases hside with h1 | h1
      · exact Or.inl h1
      · exact Or.inr fun hc => h1 (by simp [hc])
    simp only [syncGroupMembers] at h
    split at h
    · rename_i e hchk
      simp only [Prod.mk.injEq] at h
      rw [← h.1]
    · rename_i b hchk
      split at h
      · split at h
        · exact ih h n gname hrest
        · split at h
          · rename_i e hadd
            simp only [Prod.mk.injEq] at h
            rw [← h.1]
          · rename_i stx hadd
            rw [ih h n gname hrest, (addUserToGroup_ok hadd).2.2.1]
            simp [hne]
      · split at h
        · split at h
          · rename_i e hrem
            simp only [Prod.mk.injEq] at h
            rw [← h.1]
          · rename_i stx hrem
            rw [ih h n gname hrest, (removeUserFromGroup_ok hrem).2.2.1]
            simp [List.mem_filter, hne]
        · exact ih h n gname hrest

/-- Decision rule for the per-group user loop: after a successful pass
over users with duplicate-free usernames, a listed user's membership in
the group equals its username's presence in the filtered member list. -/
theorem syncGroupMembers_decides {beh : AwsBehavior} {G : AwsGroup}
    {ml : List String} : ∀ {us : List AwsUser} {st st1 : AwsState},
    syncGroupMembers beh G ml us st = (st1, none) →
    (us.map AwsUser.username).Nodup →
    ∀ u ∈ us,
      ((u.username, G.displayName) ∈ st1.memberships ↔
        ml.contains u.username = true) := by
  intro us
  induction us with
  | nil => intro st st1 _ _ u hu; cases hu
  | cons u0 rest ih =>
    intro st st1 h hnd u hu
    simp only [List.map_cons, List.nodup_cons] at hnd
    simp only [syncGroupMembers] at h
    split at h
    · rename_i e hchk
      simp only [Prod.mk.injEq] at h
      exact absurd h.2 (by simp)
    · rename_i b hchk
      have hb := isUserInGroup_ok hchk
      rcases List.mem_cons.mp hu with h1 | h1
      all_goals split at h
      · -- u = u0, listed in ml
        subst h1
        rename_i hml
        split at h
        · -- already a member: no mutation
          rename_i hbt
          rw [syncGroupMembers_frame h u.username G.displayName (Or.inr hnd.1), hml]
          simp only [iff_true]
          rw [hbt] at hb
          simpa using hb.symm
        · split at h
          · rename_i e hadd
            simp only [Prod.mk.injEq] at h
            exact absurd h.2 (by simp)
          · rename_i stx hadd
            rw [syncGroupMembers_frame h u.username G.displayName (Or.inr hnd.1), hml]
            simp only [iff_true]
            rw [(addUserToGroup_ok hadd).2.2.1]
            simp
      · -- u = u0, not listed in ml
        subst h1
        rename_i hml
        split at h
        · -- currently a member: removed
          rename_i hbt
          split at h
          · rename_i e hrem
            simp only [Prod.mk.injEq] at h
            exact absurd h.2 (by simp)
          · rename_i stx hrem
            rw [syncGroupMembers_frame h u.username G.displayName (Or.inr hnd.1)]
            rw [(removeUserFromGroup_ok hrem).2.2.1]
            simp [List.mem_filter, hml]
            simpa using hml
        · rename_i hbf
          rw [syncGroupMembers_frame h u.username G.displayName (Or.inr hnd.1)]
          simp only [Bool.not_eq_true] at hbf
          rw [hbf] at hb
          have hpair : (u.username, G.displayName) ∉ st.memberships := by
            intro hc
            have hc2 : st.memberships.contains (u.username, G.displayName) = true := by
              simpa using hc
            rw [← hb] at hc2
            cases hc2
          exact iff_of_false hpair hml
      · -- u ∈ rest, u0 listed
        split at h
        · exact ih h hnd.2 u h1
        · split at h
          · rename_i e hadd
            simp only [Prod.mk.injEq] at h
            exact absurd h.2 (by simp)
          · exact ih h hnd.2 u h1
      · -- u ∈ rest, u0 not listed
        split at h
        · split at h
          · rename_i e hrem
            simp only [Prod.mk.injEq] at h
            exact absurd h.2 (by simp)
          · exact ih h hnd.2 u h1
        · exact ih h hnd.2 u h1

/-! ### The per-source-group step and the main group loop -/

theorem syncOneGroupMembers_state {gd : GoogleDirectory} {beh : AwsBehavior}
    {tbl : UsersTable} {g : GoogleGroup} {G : AwsGroup} {st st1 : AwsState}
    {r : Option Err} (h : syncOneGroupMembers gd beh tbl g G st = (st1, r)) :
    st1.users = st.users ∧ st1.groups = st.groups ∧
    ∃ new, st1.log = st.log ++ new ∧
      ∀ op ∈ new, (∃ x y, op = Op.addUserToGroup x y) ∨
        (∃ x y, op = Op.removeUserFromGroup x y) := by
  unfold syncOneGroupMembers at h
  split at h
  · simp only [Prod.mk.injEq] at h
    rw [← h.1]
    exact ⟨rfl, rfl, [], by simp, by simp⟩
  · exact syncGroupMembers_state h

theorem syncOneGroupMembers_frame {gd : GoogleDirectory} {beh : AwsBehavior}
    {tbl : UsersTable} {g : GoogleGroup} {G : AwsGroup} {st st1 : AwsState}
    {r : Option Err} (h : syncOneGroupMembers gd beh tbl g G st = (st1, r)) :
    ∀ n gname, gname ≠ G.displayName →
    ((n, gname) ∈ st1.memberships ↔ (n, gname) ∈ st.memberships) := by
  unfold syncOneGroupMembers at h
  split at h
  · simp only [Prod.mk.injEq] at h
    rw [← h.1]
    exact fun n gname _ => Iff.rfl
  · exact fun n gname hne => syncGroupMembers_frame h n gname (Or.inl hne)

theorem syncOneGroupMembers_decides {gd : GoogleDirectory} {beh : AwsBehavior}
    {tbl : UsersTable} {g : GoogleGroup} {G : AwsGroup} {st st1 : AwsState}
    {ms : List GoogleMember} (hms : gd.groupMembers g.name = .ok ms)
    (h : syncOneGroupMembers gd beh tbl g G st = (st1, none))
    (hnd : ((tblValues tbl).map AwsUser.username).Nodup) :
    ∀ u ∈ tblValues tbl,
      ((u.username, G.displayName) ∈ st1.memberships ↔
        (memberFilter tbl ms).contains u.username = true) := by
  unfold syncOneGroupMembers at h
  rw [hms] at h
  exact syncGroupMembers_decides h hnd

/-- The main group loop never touches target users, and only appends
groups, each named after a processed source group. -/
theorem processGroups_state {gd : GoogleDirectory} {beh : AwsBehavior}
    {tbl : UsersTable} {snap : List AwsGroup} :
    ∀ {l : List GoogleGroup} {st st1 : AwsState} {corr corr1 : List String}
      {r : Option Err},
    processGroups gd beh tbl snap l st corr = (st1, corr1, r) →
    st1.users = st.users ∧
    ∃ created, st1.groups = st.groups ++ created ∧
      ∀ c ∈ created, ∃ g ∈ l, c.displayName = g.name := by
  intro l
  induction l with
  | nil =>
    intro st st1 corr corr1 r h
    simp only [processGroups, Prod.mk.injEq] at h
    rw [← h.1]
    exact ⟨rfl, [], by simp, by simp⟩
  | cons g0 rest ih =>
    intro st st1 corr corr1 r h
    simp only [processGroups] at h
    split at h
    · rename_i awsGroup hfind
      split at h
      · rename_i stx e hone
        simp only [Prod.mk.injEq] at h
        obtain ⟨hst, -, -⟩ := h
        subst hst
        obtain ⟨hu, hg, -⟩ := syncOneGroupMembers_state hone
        exact ⟨hu, [], by simp [hg], by simp⟩
      · rename_i stx hone
        obtain ⟨hu, created, hgr, hp⟩ := ih h
        obtain ⟨hu2, hg2, -⟩ := syncOneGroupMembers_state hone
        refine ⟨hu.trans hu2, created, by rw [hgr, hg2], ?_⟩
        intro c hc
        obtain ⟨g, hg, he⟩ := hp c hc
        exact ⟨g, by simp [hg], he⟩
    · rename_i hfind
      split at h
      · rename_i e hcg
        simp only [Prod.mk.injEq] at h
        obtain ⟨hst, -, -⟩ := h
        subst hst
        exact ⟨rfl, [], by simp, by simp⟩
      · rename_i newGroup stx hcg
        have hcok := createGroup_ok hcg
        split at h
        · rename_i sty e hone
          simp only [Prod.mk.injEq] at h
          obtain ⟨hst, -, -⟩ := h
          subst hst
          obtain ⟨hu, hg, -⟩ := syncOneGroupMembers_state hone
          refine ⟨hu.trans hcok.2.2.1, [⟨g0.name⟩], by rw [hg, hcok.2.1], ?_⟩
          intro c hc
          simp only [List.mem_singleton] at hc
          subst hc
          exact ⟨g0, by simp, rfl⟩
        · rename_i sty hone
          obtain ⟨hu, created, hgr, hp⟩ := ih h
          obtain ⟨hu2, hg2, -⟩ := syncOneGroupMembers_state hone
          refine ⟨(hu.trans hu2).trans hcok.2.2.1,
            ⟨g0.name⟩ :: created, ?_, ?_⟩
          · rw [hgr, hg2, hcok.2.1, List.append_assoc]
            rfl
          · intro c hc
            rcases List.mem_cons.mp hc with h1 | h1
            · subst h1
              exact ⟨g0, by simp, rfl⟩
            · obtain ⟨g, hg, he⟩ := hp c h1
              exact ⟨g, by simp [hg], he⟩

/-- On success the correlated-name list collects exactly the processed
source group names, in order. -/
theorem processGroups_correlated {gd : GoogleDirectory} {beh : AwsBehavior}
    {tbl : UsersTable} {snap : List AwsGroup} :
    ∀ {l : List GoogleGroup} {st st1 : AwsState} {corr corr1 : List String},
    processGroups gd beh tbl snap l st corr = (st1, corr1, none) →
    corr1 = corr ++ l.map GoogleGroup.name := by
  intro l
  induction l with
  | nil =>
    intro st st1 corr corr1 h
    simp only [processGroups, Prod.mk.injEq] at h
    rw [← h.2.1]
    simp
  | cons g0 rest ih =>
    intro st st1 corr corr1 h
    simp only [processGroups] at h
    split at h
    · rename_i awsGroup hfind
      have hname : awsGroup.displayName = g0.name := by
        have := List.find?_some hfind
        simpa using this
      split at h
      · rename_i stx e hone
        simp only [Prod.mk.injEq] at h
        exact absurd h.2.2 (by simp)
      · rename_i stx hone
        rw [ih h, hname]
        simp
    · rename_i hfind
      split at h
      · rename_i e hcg
        simp only [Prod.mk.injEq] at h
        exact absurd h.2.2 (by simp)
      · rename_i newGroup stx hcg
        have hname : newGroup.displayName = g0.name := by
          rw [(createGroup_ok hcg).1]
        split at h
        · rename_i sty e hone
          simp only [Prod.mk.injEq] at h
          exact absurd h.2.2 (by simp)
        · rename_i sty hone
          rw [ih h, hname]
          simp

/-- Frame rule for the main group loop: membership pairs of groups named
after no processed source group are untouched. -/
theorem processGroups_mem_frame {gd : GoogleDirectory} {beh : AwsBehavior}
    {tbl : UsersTable} {snap : List AwsGroup} :
    ∀ {l : List GoogleGroup} {st st1 : AwsState} {corr corr1 : List String}
      {r : Option Err},
    processGroups gd beh tbl snap l st corr = (st1, corr1, r) →
    ∀ n gname, (∀ g ∈ l, gname ≠ g.name) →
    ((n, gname) ∈ st1.memberships ↔ (n, gname) ∈ st.memberships) := by
  intro l
  induction l with
  | nil =>
    intro st st1 corr corr1 r h n gname _
    simp only [processGroups, Prod.mk.injEq] at h
    rw [← h.1]
  | cons g0 rest ih =>
    intro st st1 corr corr1 r h n gname hng
    have hg0 : gname ≠ g0.name := hng g0 (by simp)
    have hrest : ∀ g ∈ rest, gname ≠ g.name := fun g hg => hng g (by simp [hg])
    simp only [processGroups] at h
    split at h
    · rename_i awsGroup hfind
      have hname : awsGroup.displayName = g0.name := by
        have := List.find?_some hfind
        simpa using this
      split at h
      · rename_i stx e hone
        simp only [Prod.mk.injEq] at h
        rw [← h.1]
        exact syncOneGroupMembers_frame hone n gname (by rw [hname]; exact hg0)
      · rename_i stx hone
        rw [ih h n gname hrest]
        exact syncOneGroupMembers_frame hone n gname (by rw [hname]; exact hg0)
    · rename_i hfind
      split at h
      · rename_i e hcg
        simp only [Prod.mk.injEq] at h
        rw [← h.1]
      · rename_i newGroup stx hcg
        have hcok := createGroup_ok hcg
        have hname : newGroup.displayName = g0.name := by rw [hcok.1]
        split at h
        · rename_i sty e hone
          simp only [Prod.mk.injEq] at h
          rw [← h.1]
          rw [syncOneGroupMembers_frame hone n gname (by rw [hname]; exact hg0)]
          rw [hcok.2.2.2.1]
        · rename_i sty hone
          rw [ih h n gname hrest,
            syncOneGroupMembers_frame hone n gname (by rw [hname]; exact hg0),
            hcok.2.2.2.1]

/-- Decision rule for the main group loop: after a successful pass with
duplicate-free source group names, a correlation-table principal's final
membership in a processed group equals its username's presence in that
group's filtered member list. -/
theorem processGroups_decides {gd : GoogleDirectory} {beh : AwsBehavior}
    {tbl : UsersTable} {snap : List AwsGroup} :
    ∀ {l : List GoogleGroup} {st st1 : AwsState} {corr corr1 : List String},
    processGroups gd beh tbl snap l st corr = (st1, corr1, none) →
    (l.map GoogleGroup.name).Nodup →
    ((tblValues tbl).map AwsUser.username).Nodup →
    ∀ g ∈ l, ∀ ms, gd.groupMembers g.name = .ok ms →
    ∀ u ∈ tblValues tbl,
      ((u.username, g.name) ∈ st1.memberships ↔
        (memberFilter tbl ms).contains u.username = true) := by
  intro l
  induction l with
  | nil => intro st st1 corr corr1 _ _ _ g hg; cases hg
  | cons g0 rest ih =>
    intro st st1 corr corr1 h hl hnd g hg ms hms u hu
    simp only [List.map_cons, List.nodup_cons] at hl
    simp only [processGroups] at h
    split at h
    · rename_i awsGroup hfind
      have hname : awsGroup.displayName = g0.name := by
        have := List.find?_some hfind
        simpa using this
      split at h
      · rename_i stx e hone
        simp only [Prod.mk.injEq] at h
        exact absurd h.2.2 (by simp)
      · rename_i stx hone
        rcases List.mem_cons.mp hg with h1 | h1
        · subst h1
          rw [processGroups_mem_frame h u.username g.name
            (fun g' hg' => fun hc => hl.1 (hc ▸ List.mem_map_of_mem GoogleGroup.name hg'))]
          rw [← hname]
          exact syncOneGroupMembers_decides hms hone hnd u hu
        · exact ih h hl.2 hnd g h1 ms hms u hu
    · rename_i hfind
      split at h
      · rename_i e hcg
        simp only [Prod.mk.injEq] at h
        exact absurd h.2.2 (by simp)
      · rename_i newGroup stx hcg
        have hcok := createGroup_ok hcg
        have hname : newGroup.displayName = g0.name := by rw [hcok.1]
        split at h
        · rename_i sty e hone
          simp only [Prod.mk.injEq] at h
          exact absurd h.2.2 (by simp)
        · rename_i sty hone
          rcases List.mem_cons.mp hg with h1 | h1
          · subst h1
            rw [processGroups_mem_frame h u.username g.name
              (fun g' hg' => fun hc => hl.1 (hc ▸ List.mem_map_of_mem GoogleGroup.name hg'))]
            rw [← hname]
            exact syncOneGroupMembers_decides hms hone hnd u hu
          · exact ih h hl.2 hnd g h1 ms hms u hu

/-! ### The cleanup loop -/

/-- Every group surviving cleanup was already present and is named after
no uncorrelated snapshot group. -/
theorem cleanupGroups_survivors {beh : AwsBehavior} {corr : List String} :
    ∀ {gs : List AwsGroup} {st st1 : AwsState},
    cleanupGroups beh corr gs st = (st1, none) →
    ∀ h2 ∈ st1.groups, h2 ∈ st.groups ∧
      ∀ g ∈ gs, g.displayName ∉ corr → h2.displayName ≠ g.displayName := by
  intro gs
  induction gs with
  | nil =>
    intro st st1 h h2 hm
    simp only [cleanupGroups, Prod.mk.injEq] at h
    obtain ⟨h1, -⟩ := h
    subst h1
    exact ⟨hm, by simp⟩
  | cons g0 rest ih =>
    intro st st1 h h2 hm
    simp only [cleanupGroups] at h
    split at h
    · rename_i hcorr
      obtain ⟨hmem, hprop⟩ := ih h h2 hm
      refine ⟨hmem, ?_⟩
      intro g hg hgc
      rcases List.mem_cons.mp hg with h1 | h1
      · subst h1
        exact absurd (by simpa using hcorr) hgc
      · exact hprop g h1 hgc
    · rename_i hcorr
      split at h
      · rename_i e hdg
        simp only [Prod.mk.injEq] at h
        exact absurd h.2 (by simp)
      · rename_i stx hdg
        have hdok := deleteGroup_ok hdg
        obtain ⟨hmem, hprop⟩ := ih h h2 hm
        rw [hdok.1] at hmem
        have hmem2 := List.mem_filter.mp hmem
        refine ⟨hmem2.1, ?_⟩
        intro g hg hgc
        rcases List.mem_cons.mp hg with h1 | h1
        · subst h1
          simpa using hmem2.2
        · exact hprop g h1 hgc

/-- Cleanup never deletes membership pairs of correlated groups. -/
theorem cleanupGroups_mem_frame {beh : AwsBehavior} {corr : List String} :
    ∀ {gs : List AwsGroup} {st st1 : AwsState} {r : Option Err},
    cleanupGroups beh corr gs st = (st1, r) →
    ∀ n gname, gname ∈ corr →
    ((n, gname) ∈ st1.memberships ↔ (n, gname) ∈ st.memberships) := by
  intro gs
  induction gs with
  | nil =>
    intro st st1 r h n gname _
    simp only [cleanupGroups, Prod.mk.injEq] at h
    rw [← h.1]
  | cons g0 rest ih =>
    intro st st1 r h n gname hc
    simp only [cleanupGroups] at h
    split at h
    · exact ih h n gname hc
    · rename_i hcorr
      split at h
      · rename_i e hdg
        simp only [Prod.mk.injEq] at h
        rw [← h.1]
      · rename_i stx hdg
        rw [ih h n gname hc, (deleteGroup_ok hdg).2.2.1]
        have hne : gname ≠ g0.displayName := by
          intro hq
          exact hcorr (by simpa using hq ▸ hc)
        simp [List.mem_filter, hne]

/-- The cleanup loop's log suffix holds only deletes of uncorrelated
group names. -/
theorem cleanupGroups_log {beh : AwsBehavior} {corr : List String} :
    ∀ {gs : List AwsGroup} {st st1 : AwsState} {r : Option Err},
    cleanupGroups beh corr gs st = (st1, r) →
    ∃ new, st1.log = st.log ++ new ∧
      ∀ op ∈ new, ∃ nn, op = Op.deleteGroup nn ∧ nn ∉ corr := by
  intro gs
  induction gs with
  | nil =>
    intro st st1 r h
    simp only [cleanupGroups, Prod.mk.injEq] at h
    rw [← h.1]
    exact ⟨[], by simp, by simp⟩
  | cons g0 rest ih =>
    intro st st1 r h
    simp only [cleanupGroups] at h
    split at h
    · exact ih h
    · rename_i hcorr
      split at h
      · rename_i e hdg
        simp only [Prod.mk.injEq] at h
        rw [← h.1]
        exact ⟨[], by simp, by simp⟩
      · rename_i stx hdg
        have hdok := deleteGroup_ok hdg
        obtain ⟨new, hlog, hops⟩ := ih h
        refine ⟨Op.deleteGroup g0.displayName :: new, ?_, ?_⟩
        · rw [hlog, hdok.2.2.2, List.append_assoc]
          rfl
        · intro op hop
          rcases List.mem_cons.mp hop with h1 | h1
          · exact ⟨g0.displayName, h1, by simpa using hcorr⟩
          · exact hops op h1

/-! ### SyncGroups assembly -/

theorem getGroups_ok {beh : AwsBehavior} {st : AwsState} {gs : List AwsGroup}
    (h : getGroups beh st = .ok gs) : gs = st.groups := by
  unfold getGroups at h
  cases hc : beh.getGroupsErr with
  | none =>
    rw [hc] at h
    simp only [Except.ok.injEq] at h
    rw [h]
  | some e => rw [hc] at h; cases h

/-- A successful `SyncGroups` run decomposes into a successful main loop
over the snapshot `st.groups` followed by a successful cleanup, with the
correlated names being exactly the source group names. -/
theorem SyncGroups_ok_elim {gd : GoogleDirectory} {beh : AwsBehavior}
    {tbl : UsersTable} {st st' : AwsState} {ggs : List GoogleGroup}
    (hgs : gd.groups = .ok ggs)
    (hrun : SyncGroups gd beh tbl st = (st', none)) :
    ∃ st1, processGroups gd beh tbl st.groups ggs st []
        = (st1, ggs.map GoogleGroup.name, none)
      ∧ cleanupGroups beh (ggs.map GoogleGroup.name) st.groups st1 = (st', none) := by
  simp only [SyncGroups, hgs] at hrun
  split at hrun
  · rename_i e hget
    simp only [Prod.mk.injEq] at hrun
    exact absurd hrun.2 (by simp)
  · rename_i snapshot hget
    have hsnap := getGroups_ok hget
    subst hsnap
    split at hrun
    · rename_i st1 corr e hproc
      simp only [Prod.mk.injEq] at hrun
      exact absurd hrun.2 (by simp)
    · rename_i st1 corr hproc
      have hcorr := processGroups_correlated hproc
      simp only [List.nil_append] at hcorr
      subst hcorr
      exact ⟨st1, hproc, hrun⟩

/-- C4: after a successful `SyncGroups` run, every surviving target group
is named after some source group; equivalently, every target group whose
display name was never correlated has been deleted. -/
theorem claim_C4_uncorrelated_groups_deleted {gd : GoogleDirectory}
    {beh : AwsBehavior} {tbl : UsersTable} {st st' : AwsState}
    {ggs : List GoogleGroup}
    (hgs : gd.groups = .ok ggs)
    (hrun : SyncGroups gd beh tbl st = (st', none)) :
    ∀ h2 ∈ st'.groups, ∃ g ∈ ggs, g.name = h2.displayName := by
  obtain ⟨st1, hproc, hclean⟩ := SyncGroups_ok_elim hgs hrun
  intro h2 hm
  obtain ⟨hm1, hprop⟩ := cleanupGroups_survivors hclean h2 hm
  obtain ⟨-, created, hgr, hcp⟩ := processGroups_state hproc
  rw [hgr] at hm1
  rcases List.mem_append.mp hm1 with hm2 | hm2
  · by_cases hc : h2.displayName ∈ ggs.map GoogleGroup.name
    · obtain ⟨g, hg, he⟩ := List.mem_map.mp hc
      exact ⟨g, hg, he⟩
    · exact absurd rfl (hprop h2 hm2 hc)
  · obtain ⟨g, hg, he⟩ := hcp h2 hm2
    exact ⟨g, hg, he.symm⟩

/-- Witness for C4: the uncorrelated target group `Temp` is deleted; the
surviving group `G` matches the single source group by name. -/
theorem claim_C4_uncorrelated_groups_deleted_witness :
    (AwsGroup.mk "G").displayName ∈
      ([⟨"G"⟩] : List GoogleGroup).map GoogleGroup.name := by
  obtain ⟨g, hg, he⟩ := @claim_C4_uncorrelated_groups_deleted gdKeyed behNoErr []
    ⟨[], [⟨"G"⟩, ⟨"Temp"⟩], [], []⟩ ⟨[], [⟨"G"⟩], [], [Op.deleteGroup "Temp"]⟩
    [⟨"G"⟩] rfl (by decide) ⟨"G"⟩ (by decide)
  rw [← he]
  exact List.mem_map_of_mem GoogleGroup.name hg

/-- Final membership after a successful `SyncGroups` run: for a
correlation-table principal and a source group, membership equals the
presence of the principal's target username in the group's filtered member
list (which is keyed by member email). -/
theorem SyncGroups_membership {gd : GoogleDirectory} {beh : AwsBehavior}
    {tbl : UsersTable} {st st' : AwsState} {ggs : List GoogleGroup}
    {g : GoogleGroup} {ms : List GoogleMember} {k : String} {u : AwsUser}
    (htk : (tblKeys tbl).Nodup)
    (htv : ∀ p ∈ tbl, p.1 = p.2.username)
    (hgs : gd.groups = .ok ggs)
    (hgnd : (ggs.map GoogleGroup.name).Nodup)
    (hrun : SyncGroups gd beh tbl st = (st', none))
    (hmem : (k, u) ∈ tbl)
    (hg : g ∈ ggs)
    (hms : gd.groupMembers g.name = .ok ms) :
    ((u.username, g.name) ∈ st'.memberships ↔
      (memberFilter tbl ms).contains u.username = true) := by
  obtain ⟨st1, hproc, hclean⟩ := SyncGroups_ok_elim hgs hrun
  have hvk : (tblValues tbl).map AwsUser.username = tblKeys tbl := by
    unfold tblValues tblKeys
    rw [List.map_map]
    exact List.map_congr_left fun p hp => (htv p hp).symm
  have hvnd : ((tblValues tbl).map AwsUser.username).Nodup := by
    rw [hvk]; exact htk
  have humem : u ∈ tblValues tbl := List.mem_map_of_mem Prod.snd hmem
  have h1 := processGroups_decides hproc hgnd hvnd g hg ms hms u humem
  have h2 := cleanupGroups_mem_frame hclean u.username g.name
    (List.mem_map_of_mem GoogleGroup.name hg)
  rw [h2, h1]

/-- C1 (amended): for a correlation-table principal whose target username
equals its primary email, and a correlated source group, post-run target
membership equals the presence of the principal's email in that source
group's member list. -/
theorem claim_C1_membership_converges {gd : GoogleDirectory} {beh : AwsBehavior}
    {tbl : UsersTable} {st st' : AwsState} {ggs : List GoogleGroup}
    {g : GoogleGroup} {ms : List GoogleMember} {k : String} {u : AwsUser}
    (htk : (tblKeys tbl).Nodup)
    (htv : ∀ p ∈ tbl, p.1 = p.2.username)
    (hgs : gd.groups = .ok ggs)
    (hgnd : (ggs.map GoogleGroup.name).Nodup)
    (hrun : SyncGroups gd beh tbl st = (st', none))
    (hmem : (k, u) ∈ tbl)
    (hg : g ∈ ggs)
    (hms : gd.groupMembers g.name = .ok ms)
    (hue : u.username = u.email) :
    ((u.username, g.name) ∈ st'.memberships ↔
      u.email ∈ ms.map GoogleMember.email) := by
  rw [SyncGroups_membership htk htv hgs hgnd hrun hmem hg hms]
  have hk : k = u.username := htv (k, u) hmem
  have hkk : u.username ∈ tblKeys tbl := by
    rw [← hk]
    exact List.mem_map_of_mem Prod.fst hmem
  constructor
  · intro hc
    have : u.username ∈ memberFilter tbl ms := by simpa using hc
    obtain ⟨m, hm, hme⟩ := List.mem_map.mp this
    have hm2 := List.mem_filter.mp hm
    rw [← hue, ← hme]
    exact List.mem_map_of_mem GoogleMember.email hm2.1
  · intro hc
    obtain ⟨m, hm, hme⟩ := List.mem_map.mp hc
    have hmm : m ∈ ms.filter (fun m2 => (tblKeys tbl).contains m2.email) := by
      refine List.mem_filter.mpr ⟨hm, ?_⟩
      rw [hme, ← hue]
      simpa using hkk
    have : u.username ∈ memberFilter tbl ms := by
      unfold memberFilter
      rw [hue, ← hme]
      exact List.mem_map_of_mem GoogleMember.email hmm
    simpa using this

/-- Counterexample for C1 as stated: the target principal is correlated
under username `u1` while its primary email is `a@x`; the source group's
member list contains `a@x`, yet after a fully successful run the principal
is not a member — the filtered member list is keyed by email but probed by
username. -/
theorem claim_C1_counterexample :
    SyncUsers gdKeyed behNoErr stKeyed
      = (stKeyed, [("u1", ⟨"u1", "Ada", "Lovelace", "a@x"⟩)], none)
    ∧ gdKeyed.groupMembers "G" = .ok [⟨"a@x"⟩]
    ∧ SyncGroups gdKeyed behNoErr [("u1", ⟨"u1", "Ada", "Lovelace", "a@x"⟩)] stKeyed
      = (stKeyed, none)
    ∧ ¬ ((("u1", "G") ∈ stKeyed.memberships) ↔
        "a@x" ∈ ([⟨"a@x"⟩] : List GoogleMember).map GoogleMember.email) := by
  refine ⟨by decide, rfl, by decide, ?_⟩
  intro hiff
  exact absurd (hiff.mpr (by decide)) (by decide)

/-- C9 (amended): for a correlation-table principal and a correlated
source group none of whose member emails equals the principal's target
username — in particular any group, when the username differs from the
email and no member email collides with the username — the principal ends
the run not a member of the group: the add branch is never taken and an
existing membership is removed. -/
theorem claim_C9_username_keyed_removal {gd : GoogleDirectory} {beh : AwsBehavior}
    {tbl : UsersTable} {st st' : AwsState} {ggs : List GoogleGroup}
    {g : GoogleGroup} {ms : List GoogleMember} {k : String} {u : AwsUser}
    (htk : (tblKeys tbl).Nodup)
    (htv : ∀ p ∈ tbl, p.1 = p.2.username)
    (hgs : gd.groups = .ok ggs)
    (hgnd : (ggs.map GoogleGroup.name).Nodup)
    (hrun : SyncGroups gd beh tbl st = (st', none))
    (hmem : (k, u) ∈ tbl)
    (hg : g ∈ ggs)
    (hms : gd.groupMembers g.name = .ok ms)
    (hno : ∀ m ∈ ms, m.email ≠ u.username) :
    (u.username, g.name) ∉ st'.memberships := by
  rw [SyncGroups_membership htk htv hgs hgnd hrun hmem hg hms]
  intro hc
  have : u.username ∈ memberFilter tbl ms := by simpa using hc
  obtain ⟨m, hm, hme⟩ := List.mem_map.mp this
  exact hno m (List.mem_filter.mp hm).1 hme

/-- Counterexample for C9 as stated: the principal's target username `u1`
differs from its primary email `a@x`, yet when a source member's email is
the literal string `u1` the add branch is taken and the principal ends the
run as a member of the group. -/
theorem claim_C9_counterexample :
    ("u1", AwsUser.mk "u1" "Ada" "Lovelace" "a@x") ∈ tblKeyed
    ∧ (AwsUser.mk "u1" "Ada" "Lovelace" "a@x").username
        ≠ (AwsUser.mk "u1" "Ada" "Lovelace" "a@x").email
    ∧ SyncGroups gdColl behNoErr tblKeyed stKeyed
      = (⟨[⟨"u1", "Ada", "Lovelace", "a@x"⟩], [⟨"G"⟩], [("u1", "G")],
          [Op.addUserToGroup "u1" "G"]⟩, none)
    ∧ ("u1", "G") ∈
        (AwsState.mk [⟨"u1", "Ada", "Lovelace", "a@x"⟩] [⟨"G"⟩] [("u1", "G")]
          [Op.addUserToGroup "u1" "G"]).memberships := by
  refine ⟨by decide, by decide, by decide, by decide⟩

/-- Witness for C1 (amended) and C9 (amended) hypotheses are exercised on
the `gdKeyed` world where the username equals the email. -/
theorem claim_C1_membership_converges_witness :
    ("alice@x", "G") ∈
      (AwsState.mk [⟨"alice@x", "Alice", "A", "alice@x"⟩] [⟨"G"⟩]
        [("alice@x", "G")] [Op.addUserToGroup "alice@x" "G"]).memberships
    ↔ "alice@x" ∈ ([⟨"alice@x"⟩] : List GoogleMember).map GoogleMember.email := by
  have H := @claim_C1_membership_converges gdAlice behNoErr
    [("alice@x", ⟨"alice@x", "Alice", "A", "alice@x"⟩)]
    stAliceG
    ⟨[⟨"alice@x", "Alice", "A", "alice@x"⟩], [⟨"G"⟩],
      [("alice@x", "G")], [Op.addUserToGroup "alice@x" "G"]⟩
    [⟨"G"⟩] ⟨"G"⟩ [⟨"alice@x"⟩]
    "alice@x" ⟨"alice@x", "Alice", "A", "alice@x"⟩
    (by decide) (by decide) rfl (by decide) (by decide) (by decide) (by decide)
    rfl rfl
  simp only [GoogleGroup.name] at H
  exact H

/-- Witness for C9 (amended): `u1`'s username matches no member email of
`G`, so its pre-existing membership is removed by the run. -/
theorem claim_C9_username_keyed_removal_witness :
    ("u1", "G") ∉
      (AwsState.mk [⟨"u1", "Ada", "Lovelace", "a@x"⟩] [⟨"G"⟩] []
        [Op.removeUserFromGroup "u1" "G"]).memberships :=
  @claim_C9_username_keyed_removal gdKeyed behNoErr
    tblKeyed stKeyedMem
    ⟨[⟨"u1", "Ada", "Lovelace", "a@x"⟩], [⟨"G"⟩], [],
      [Op.removeUserFromGroup "u1" "G"]⟩
    [⟨"G"⟩] ⟨"G"⟩ [⟨"a@x"⟩]
    "u1" ⟨"u1", "Ada", "Lovelace", "a@x"⟩
    (by decide) (by decide) rfl (by decide) (by decide) (by decide) (by decide)
    rfl (by decide)

/-! ### Snapshot semantics of the group loop (logs and counts) -/

/-- The main group loop's log suffix contains no group delete, and every
group create in it is named after a processed source group. -/
theorem processGroups_log {gd : GoogleDirectory} {beh : AwsBehavior}
    {tbl : UsersTable} {snap : List AwsGroup} :
    ∀ {l : List GoogleGroup} {st st1 : AwsState} {corr corr1 : List String}
      {r : Option Err},
    processGroups gd beh tbl snap l st corr = (st1, corr1, r) →
    ∃ new, st1.log = st.log ++ new ∧
      (∀ n, Op.deleteGroup n ∉ new) ∧
      (∀ n, Op.createGroup n ∈ new → ∃ g ∈ l, g.name = n) := by
  intro l
  induction l with
  | nil =>
    intro st st1 corr corr1 r h
    simp only [processGroups, Prod.mk.injEq] at h
    rw [← h.1]
    exact ⟨[], by simp, by simp, by simp⟩
  | cons g0 rest ih =>
    intro st st1 corr corr1 r h
    simp only [processGroups] at h
    split at h
    · rename_i awsGroup hfind
      split at h
      · rename_i stx e hone
        simp only [Prod.mk.injEq] at h
        obtain ⟨hst, -, -⟩ := h
        subst hst
        obtain ⟨-, -, new, hlog, hops⟩ := syncOneGroupMembers_state hone
        refine ⟨new, hlog, ?_, ?_⟩
        · intro n hn
          rcases hops _ hn with ⟨x, y, he⟩ | ⟨x, y, he⟩ <;> cases he
        · intro n hn
          rcases hops _ hn with ⟨x, y, he⟩ | ⟨x, y, he⟩ <;> cases he
      · rename_i stx hone
        obtain ⟨new2, hlog2, hdel2, hcr2⟩ := ih h
        obtain ⟨-, -, new1, hlog1, hops1⟩ := syncOneGroupMembers_state hone
        refine ⟨new1 ++ new2, by rw [hlog2, hlog1, List.append_assoc], ?_, ?_⟩
        · intro n hn
          rcases List.mem_append.mp hn with h1 | h1
          · rcases hops1 _ h1 with ⟨x, y, he⟩ | ⟨x, y, he⟩ <;> cases he
          · exact hdel2 n h1
        · intro n hn
          rcases List.mem_append.mp hn with h1 | h1
          · rcases hops1 _ h1 with ⟨x, y, he⟩ | ⟨x, y, he⟩ <;> cases he
          · obtain ⟨g, hg, he⟩ := hcr2 n h1
            exact ⟨g, by simp [hg], he⟩
    · rename_i hfind
      split at h
      · rename_i e hcg
        simp only [Prod.mk.injEq] at h
        obtain ⟨hst, -, -⟩ := h
        subst hst
        exact ⟨[], by simp, by simp, by simp⟩
      · rename_i newGroup stx hcg
        have hcok := createGroup_ok hcg
        split at h
        · rename_i sty e hone
          simp only [Prod.mk.injEq] at h
          obtain ⟨hst, -, -⟩ := h
          subst hst
          obtain ⟨-, -, new1, hlog1, hops1⟩ := syncOneGroupMembers_state hone
          refine ⟨Op.createGroup g0.name :: new1, ?_, ?_, ?_⟩
          · rw [hlog1, hcok.2.2.2.2, List.append_assoc]
            rfl
          · intro n hn
            rcases List.mem_cons.mp hn with h1 | h1
            · cases h1
            · rcases hops1 _ h1 with ⟨x, y, he⟩ | ⟨x, y, he⟩ <;> cases he
          · intro n hn
            rcases List.mem_cons.mp hn with h1 | h1
            · exact ⟨g0, by simp, by cases h1; rfl⟩
            · rcases hops1 _ h1 with ⟨x, y, he⟩ | ⟨x, y, he⟩ <;> cases he
        · rename_i sty hone
          obtain ⟨new2, hlog2, hdel2, hcr2⟩ := ih h
          obtain ⟨-, -, new1, hlog1, hops1⟩ := syncOneGroupMembers_state hone
          refine ⟨Op.createGroup g0.name :: (new1 ++ new2), ?_, ?_, ?_⟩
          · rw [hlog2, hlog1, hcok.2.2.2.2, List.append_assoc, List.append_assoc]
            rfl
          · intro n hn
            rcases List.mem_cons.mp hn with h1 | h1
            · cases h1
            · rcases List.mem_append.mp h1 with h2 | h2
              · rcases hops1 _ h2 with ⟨x, y, he⟩ | ⟨x, y, he⟩ <;> cases he
              · exact hdel2 n h2
          · intro n hn
            rcases List.mem_cons.mp hn with h1 | h1
            · exact ⟨g0, by simp, by cases h1; rfl⟩
            · rcases List.mem_append.mp h1 with h2 | h2
              · rcases hops1 _ h2 with ⟨x, y, he⟩ | ⟨x, y, he⟩ <;> cases he
              · obtain ⟨g, hg, he⟩ := hcr2 n h2
                exact ⟨g, by simp [hg], he⟩

/-- Create-count rule: a group name absent from the snapshot is created
once per source group carrying it — even when an identically named group
was created earlier in the same run. -/
theorem processGroups_createCount {gd : GoogleDirectory} {beh : AwsBehavior}
    {tbl : UsersTable} {snap : List AwsGroup} :
    ∀ {l : List GoogleGroup} {st st1 : AwsState} {corr corr1 : List String},
    processGroups gd beh tbl snap l st corr = (st1, corr1, none) →
    ∀ n, n ∉ snap.map AwsGroup.displayName →
    (st1.log.filter (fun op => op == Op.createGroup n)).length
      = (st.log.filter (fun op => op == Op.createGroup n)).length
        + (l.map GoogleGroup.name).count n := by
  intro l
  induction l with
  | nil =>
    intro st st1 corr corr1 h n _
    simp only [processGroups, Prod.mk.injEq] at h
    rw [← h.1]
    simp
  | cons g0 rest ih =>
    intro st st1 corr corr1 h n hn
    simp only [processGroups] at h
    split at h
    · rename_i awsGroup hfind
      have hname : awsGroup.displayName = g0.name := by
        have := List.find?_some hfind
        simpa using this
      have hne : g0.name ≠ n := by
        intro hc
        refine hn ?_
        rw [← hc, ← hname]
        exact List.mem_map_of_mem AwsGroup.displayName
          (List.mem_of_find?_eq_some hfind)
      split at h
      · rename_i stx e hone
        simp only [Prod.mk.injEq] at h
        exact absurd h.2.2 (by simp)
      · rename_i stx hone
        obtain ⟨-, -, new1, hlog1, hops1⟩ := syncOneGroupMembers_state hone
        have hz : new1.filter (fun op => op == Op.createGroup n) = [] := by
          rw [List.filter_eq_nil_iff]
          intro op hop hc
          rcases hops1 _ hop with ⟨x, y, he⟩ | ⟨x, y, he⟩ <;> subst he <;> simp at hc
        have hstep : (stx.log.filter (fun op => op == Op.createGroup n)).length
            = (st.log.filter (fun op => op == Op.createGroup n)).length := by
          rw [hlog1, List.filter_append, List.length_append, hz]
          simp
        rw [ih h n hn, hstep]
        simp [List.count_cons, hne]
    · rename_i hfind
      split at h
      · rename_i e hcg
        simp only [Prod.mk.injEq] at h
        exact absurd h.2.2 (by simp)
      · rename_i newGroup stx hcg
        have hcok := createGroup_ok hcg
        split at h
        · rename_i sty e hone
          simp only [Prod.mk.injEq] at h
          exact absurd h.2.2 (by simp)
        · rename_i sty hone
          obtain ⟨-, -, new1, hlog1, hops1⟩ := syncOneGroupMembers_state hone
          have hz : new1.filter (fun op => op == Op.createGroup n) = [] := by
            rw [List.filter_eq_nil_iff]
            intro op hop hc
            rcases hops1 _ hop with ⟨x, y, he⟩ | ⟨x, y, he⟩ <;> subst he <;> simp at hc
          have hstep : (sty.log.filter (fun op => op == Op.createGroup n)).length
              = (st.log.filter (fun op => op == Op.createGroup n)).length
                + (if g0.name = n then 1 else 0) := by
            rw [hlog1, hcok.2.2.2.2, List.filter_append, List.filter_append,
              List.length_append, List.length_append, hz]
            by_cases hq : g0.name = n
            · subst hq
              simp
            · have : ((Op.createGroup g0.name == Op.createGroup n)) = false := by
                simp [hq]
              simp [List.filter_cons, this, hq]
          rw [ih h n hn, hstep]
          by_cases hq : g0.name = n
          · subst hq
            simp [List.count_cons]
            omega
          · simp [List.count_cons, hq]

/-- C10: the target-group snapshot is taken once: over a successful
`SyncGroups` run, (i) a group created by the run is never deleted by the
run, and (ii) a source group whose name is absent from the initial
snapshot triggers a create per occurrence, even when an identically named
group was created earlier in the same run. -/
theorem claim_C10_snapshot_semantics {gd : GoogleDirectory} {beh : AwsBehavior}
    {tbl : UsersTable} {st st' : AwsState} {ggs : List GoogleGroup}
    (hgs : gd.groups = .ok ggs)
    (hrun : SyncGroups gd beh tbl st = (st', none)) :
    (∀ n, Op.createGroup n ∈ st'.log.drop st.log.length →
      Op.deleteGroup n ∉ st'.log.drop st.log.length)
    ∧ (∀ n, n ∉ st.groups.map AwsGroup.displayName →
      (st'.log.filter (fun op => op == Op.createGroup n)).length
        = (st.log.filter (fun op => op == Op.createGroup n)).length
          + (ggs.map GoogleGroup.name).count n) := by
  obtain ⟨st1, hproc, hclean⟩ := SyncGroups_ok_elim hgs hrun
  obtain ⟨new1, hlog1, hdel1, hcr1⟩ := processGroups_log hproc
  obtain ⟨new2, hlog2, hops2⟩ := cleanupGroups_log hclean
  have hlog : st'.log = st.log ++ (new1 ++ new2) := by
    rw [hlog2, hlog1, List.append_assoc]
  have hdrop : st'.log.drop st.log.length = new1 ++ new2 := by
    rw [hlog]
    exact List.drop_left _ _
  constructor
  · intro n hcn hdn
    rw [hdrop] at hcn hdn
    have hnin : n ∈ ggs.map GoogleGroup.name := by
      have hcr : ∃ g ∈ ggs, g.name = n := by
        rcases List.mem_append.mp hcn with h1 | h1
        · exact hcr1 n h1
        · obtain ⟨nn, he, -⟩ := hops2 _ h1
          cases he
      obtain ⟨g, hg, he⟩ := hcr
      rw [← he]
      exact List.mem_map_of_mem _ hg
    rcases List.mem_append.mp hdn with h1 | h1
    · exact hdel1 n h1
    · obtain ⟨nn, he, hnc⟩ := hops2 _ h1
      injection he with he2
      subst he2
      exact hnc hnin
  · intro n hn
    have h1 := processGroups_createCount hproc n hn
    have h2 : new2.filter (fun op => op == Op.createGroup n) = [] := by
      rw [List.filter_eq_nil_iff]
      intro op hop hc
      obtain ⟨nn, he, -⟩ := hops2 _ hop
      subst he
      simp at hc
    rw [hlog2, List.filter_append, List.length_append, h2]
    simp only [List.length_nil, Nat.add_zero]
    exact h1

/-- Witness for C10: the source lists `H` twice, the target starts empty:
the run creates `H` twice and deletes nothing. -/
theorem claim_C10_snapshot_semantics_witness :
    (Op.deleteGroup "H" ∉
      ((AwsState.mk [] [⟨"H"⟩, ⟨"H"⟩] []
        [Op.createGroup "H", Op.createGroup "H"]).log.drop stEmpty.log.length))
    ∧ ((AwsState.mk [] [⟨"H"⟩, ⟨"H"⟩] []
        [Op.createGroup "H", Op.createGroup "H"]).log.filter
          (fun op => op == Op.createGroup "H")).length
      = (stEmpty.log.filter (fun op => op == Op.createGroup "H")).length
        + (([⟨"H"⟩, ⟨"H"⟩] : List GoogleGroup).map GoogleGroup.name).count "H" := by
  have H := @claim_C10_snapshot_semantics gdDup behNoErr [] stEmpty
    ⟨[], [⟨"H"⟩, ⟨"H"⟩], [], [Op.createGroup "H", Op.createGroup "H"]⟩
    [⟨"H"⟩, ⟨"H"⟩] rfl (by decide)
  exact ⟨H.1 "H" (by decide), H.2 "H" (by decide)⟩

end Ssosync
